import Mathlib

/-!
# treeUtils.js — a shallow embedding and its verification

The JavaScript module `src/treeUtils.js` offers seven functions over trees of records.
A record is read through three configurable keys (`idKey`, `childrenKey`, `parentKey`);
the embedding fixes the default keys and keeps one further field (`data`) standing for
everything else a record carries.

* A field value is a `Val`; a field that is absent reads as `Val.undefined`.
* The children field is `Option (List Node)`: `none` when the field is absent,
  `some kids` when it holds an array (possibly empty).
* `===` on field values is equality of `Val` (numbers are integers here; NaN is outside
  the model).
* Loops whose termination is not structural (`while` over a stack or queue, the
  recursion of `toTree`) take a fuel argument and return `Option`.
-/

namespace TreeUtils

/-! ## Data model -/

/-- A JavaScript value that may sit in an id, parent or data field. -/
inductive Val where
  | undefined
  | null
  | num (n : Int)
  | str (s : String)
  | bool (b : Bool)
  | symbol (k : Nat)
  deriving DecidableEq, Repr

/-- JavaScript truthiness of a field value. -/
def Val.truthy : Val → Bool
  | .undefined => false
  | .null => false
  | .num n => n != 0
  | .str s => s != ""
  | .bool b => b
  | .symbol _ => true

/-- A record of the tree: fields `id`, `parentId`, one further data field,
and the `children` field (absent, or an array of records). -/
inductive Node where
  | mk (id : Val) (parentId : Val) (data : Val) (children : Option (List Node))

/-- Read `node[idKey]`. -/
def Node.id : Node → Val
  | .mk i _ _ _ => i

/-- Read `node[parentKey]`. -/
def Node.parentId : Node → Val
  | .mk _ p _ _ => p

/-- Read the remaining payload of the record. -/
def Node.data : Node → Val
  | .mk _ _ d _ => d

/-- Read `node[childrenKey]`. -/
def Node.children : Node → Option (List Node)
  | .mk _ _ _ c => c

/-- The expression `node[childrenKey] || []`. -/
def Node.kids (n : Node) : List Node := n.children.getD []

/-- The assignment `node[childrenKey] = cs`. -/
def Node.setChildren : Node → List Node → Node
  | .mk i p d _, cs => .mk i p d (some cs)

/-- The statement `delete node[childrenKey]`. -/
def Node.deleteChildren : Node → Node
  | .mk i p d _ => .mk i p d none

mutual
/-- Decision procedure for equality of records. -/
def Node.decEq : (a b : Node) → Decidable (a = b)
  | .mk i p d c, .mk i2 p2 d2 c2 =>
    if h1 : i = i2 then
      if h2 : p = p2 then
        if h3 : d = d2 then
          match decEqKids c c2 with
          | isTrue h4 => isTrue (by rw [h1, h2, h3, h4])
          | isFalse h4 => isFalse (fun h => h4 (by cases h; rfl))
        else isFalse (fun h => h3 (by cases h; rfl))
      else isFalse (fun h => h2 (by cases h; rfl))
    else isFalse (fun h => h1 (by cases h; rfl))
/-- Decision procedure for equality of children fields. -/
def decEqKids : (a b : Option (List Node)) → Decidable (a = b)
  | none, none => isTrue rfl
  | some a, some b =>
    match decEqList a b with
    | isTrue h => isTrue (by rw [h])
    | isFalse h => isFalse (fun e => h (by cases e; rfl))
  | none, some _ => isFalse (fun e => by cases e)
  | some _, none => isFalse (fun e => by cases e)
/-- Decision procedure for equality of lists of records. -/
def decEqList : (a b : List Node) → Decidable (a = b)
  | [], [] => isTrue rfl
  | a :: as, b :: bs =>
    match Node.decEq a b with
    | isTrue h =>
      match decEqList as bs with
      | isTrue h2 => isTrue (by rw [h, h2])
      | isFalse h2 => isFalse (fun e => h2 (by cases e; rfl))
    | isFalse h => isFalse (fun e => h (by cases e; rfl))
  | [], _ :: _ => isFalse (fun e => by cases e)
  | _ :: _, [] => isFalse (fun e => by cases e)
end

instance : DecidableEq Node := Node.decEq

mutual
/-- Number of records in the subtree rooted at a record. -/
def Node.size : Node → Nat
  | .mk _ _ _ none => 1
  | .mk _ _ _ (some cs) => 1 + sizeList cs
/-- Number of records in a forest. -/
def sizeList : List Node → Nat
  | [] => 0
  | n :: ns => n.size + sizeList ns
end

/-! ## getNodePathFromTree (source lines 8-32) -/

mutual
/-- The closure `findPath` with the captured array `path` passed explicitly: the result is
the returned flag (`undefined` at the end of the loop reads as `false`) and the final `path`. -/
def findPath (id : Val) : List Node → List Node → Bool × List Node
  | [], path => (false, path)
  | node :: rest, path =>
    if node.id = id then (true, path ++ [node])
    else
      match findPathChildren id node path with
      | some r => if !r.1 then findPath id rest r.2.dropLast else (true, r.2)
      | none => findPath id rest path
/-- The guarded block `if (children && children.length) { path.push(node); findPath(children) }`
of one loop iteration: `none` when the guard fails, else the outcome of the recursive call. -/
def findPathChildren (id : Val) : Node → List Node → Option (Bool × List Node)
  | .mk i p d (some kids), path =>
      if kids.length ≠ 0 then some (findPath id kids (path ++ [.mk i p d (some kids)])) else none
  | .mk _ _ _ none, _ => none
end

/-- `getNodePathFromTree(id, tree)`. -/
def getNodePathFromTree (id : Val) (tree : List Node) : List Node :=
  (findPath id tree []).2

/-! ## getNodeFromTree (source lines 41-47) -/

mutual
/-- The `reduce` of `getNodeFromTree` with its accumulator (`none` is `null`). -/
def getNodeFromTreeReduce (id : Val) : Option Node → List Node → Option Node
  | acc, [] => acc
  | acc, cur :: rest =>
    getNodeFromTreeReduce id
      (acc.orElse fun _ =>
        (if cur.id = id then some cur else none).orElse fun _ => getNodeFromTreeChildren id cur)
      rest
/-- The recursive call `getNodeFromTree(id, cur[childrenKey])`; an absent field takes the
default parameter `[]`. -/
def getNodeFromTreeChildren (id : Val) : Node → Option Node
  | .mk _ _ _ (some kids) => getNodeFromTreeReduce id none kids
  | .mk _ _ _ none => none
end

/-- `getNodeFromTree(id, tree)`. -/
def getNodeFromTree (id : Val) (tree : List Node) : Option Node :=
  getNodeFromTreeReduce id none tree

/-! ## getLeavesFromTree (source lines 54-62) -/

mutual
/-- The `reduce` of `getLeavesFromTree` with its accumulator. -/
def getLeavesFromTreeReduce : List Node → List Node → List Node
  | acc, [] => acc
  | acc, cur :: rest => getLeavesFromTreeReduce (acc ++ getLeavesFromTreeArg cur) rest
/-- The argument of `concat`: the leaves below `cur` when its children field is a non-empty
array, else `cur` itself. -/
def getLeavesFromTreeArg : Node → List Node
  | .mk i p d (some kids) =>
      if kids.length ≠ 0 then getLeavesFromTreeReduce [] kids else [.mk i p d (some kids)]
  | .mk i p d none => [.mk i p d none]
end

/-- `getLeavesFromTree(tree)`. -/
def getLeavesFromTree (tree : List Node) : List Node :=
  getLeavesFromTreeReduce [] tree

/-! ## treeToFlat (source lines 69-76) -/

mutual
/-- The `reduce` of `treeToFlat` with its accumulator. -/
def treeToFlatReduce : List Node → List Node → List Node
  | acc, [] => acc
  | acc, cur :: rest => treeToFlatReduce (acc ++ [cur] ++ treeToFlatChildren cur) rest
/-- The second argument of `concat`: `cur[childrenKey] ? treeToFlat(cur[childrenKey]) : []`. -/
def treeToFlatChildren : Node → List Node
  | .mk _ _ _ (some kids) => treeToFlatReduce [] kids
  | .mk _ _ _ none => []
end

/-- `treeToFlat(tree)`. -/
def treeToFlat (tree : List Node) : List Node :=
  treeToFlatReduce [] tree

/-! ## flatToTree (source lines 85-100) -/

/-- The `forEach` of the closure `toTree`, with the captured variable `rest` passed in and
out; `recur` stands for the recursive call `toTree(children)`. The first component of the
result is `tree` after the assignments `i[childrenKey] = children`. -/
def toTreeForEach (recur : List Node → List Node → Option (List Node × List Node)) :
    List Node → List Node → Option (List Node × List Node)
  | [], rest => some ([], rest)
  | i :: is, rest =>
    let children := rest.filter fun restItem => restItem.parentId = i.id
    let rest1 := rest.filter fun restItem => restItem.parentId ≠ i.id
    if children.length ≠ 0 then
      match recur children rest1 with
      | none => none
      | some (children', rest2) =>
        match toTreeForEach recur is rest2 with
        | none => none
        | some (is', rest3) => some (i.setChildren children' :: is', rest3)
    else
      match toTreeForEach recur is rest1 with
      | none => none
      | some (is', rest3) => some (i :: is', rest3)

/-- The closure `toTree`; the fuel bounds the depth of its recursion. -/
def toTree : Nat → List Node → List Node → Option (List Node × List Node)
  | 0, _, _ => none
  | fuel + 1, tree, rest => toTreeForEach (toTree fuel) tree rest

/-- `flatToTree(flat)` run with a given recursion budget. -/
def flatToTreeFuel (fuel : Nat) (flat : List Node) : Option (List Node) :=
  let tree := flat.filter fun i => !i.parentId.truthy
  let rest := flat.filter fun i => i.parentId.truthy
  (toTree fuel tree rest).map Prod.fst

/-- `flatToTree(flat)`: the recursion of `toTree` is never deeper than the number of
records, so that many levels (plus the top call) are granted. -/
def flatToTree (flat : List Node) : Option (List Node) :=
  flatToTreeFuel (flat.length + 1) flat

/-! ## arrayToTree (source lines 109-117)

The callback reads the identifier `pid`, which neither the function nor the module declares.
`pidBinding` is what the enclosing scope binds that name to: `none` when nothing declares it,
and then reading it throws a `ReferenceError`. The callee of the inner call
`this.arrayToTree(arr, current[idKey])` depends on the receiver `this`; it is the parameter
`recur`, applied to the value `current[idKey]`. -/

/-- The callback of the `reduce` in `arrayToTree`: the comparison `current[parentKey] === pid`
reads `current[parentKey]`, then resolves `pid`. -/
def arrayToTreeStep (pidBinding : Option Val) (recur : Val → Except String (List Node))
    (res : List Node) (current : Node) : Except String (List Node) :=
  match pidBinding with
  | none => .error "ReferenceError: pid is not defined"
  | some pid =>
    if current.parentId = pid then
      match recur current.id with
      | .error e => .error e
      | .ok kids => .ok (res ++ [current.setChildren kids])
    else .ok res

/-- The `reduce` of `arrayToTree` with its accumulator; a thrown error ends the reduction. -/
def arrayToTreeReduce (pidBinding : Option Val) (recur : Val → Except String (List Node)) :
    List Node → List Node → Except String (List Node)
  | res, [] => .ok res
  | res, current :: rest =>
    match arrayToTreeStep pidBinding recur res current with
    | .error e => .error e
    | .ok res' => arrayToTreeReduce pidBinding recur res' rest

/-- `arrayToTree(arr)`. -/
def arrayToTree (pidBinding : Option Val) (recur : Val → Except String (List Node))
    (arr : List Node) : Except String (List Node) :=
  arrayToTreeReduce pidBinding recur [] arr

/-! ## treeShake (source lines 127-177)

`treeShake` mutates the records it is given. The records of a tree are distinct objects,
so a reference to a record is modelled by its position: the list of child indices leading
from the synthetic root to it. The queue of the breadth-first loop holds such references,
reading through a reference is `Node.getAt`, and an assignment to a field of the referenced
record is `Node.updateAt`. Calls of `onDelete` are recorded in a log. -/

/-- The configuration record passed to `treeShake`. `filterFn = none` stands for a value
that is not a function; `onDelete` tells whether a callable `onDelete` was supplied. -/
structure Config where
  tree : List Node
  filterFn : Option (Node → Bool)
  onDelete : Bool

/-- The record a reference denotes. -/
def Node.getAt : List Nat → Node → Option Node
  | [], n => some n
  | k :: ref, n =>
    match n.kids[k]? with
    | none => none
    | some c => Node.getAt ref c

/-- Apply a field update `f` to the record a reference denotes. -/
def Node.updateAt (f : Node → Node) : List Nat → Node → Node
  | [], n => f n
  | k :: ref, .mk i p d (some kids) => .mk i p d (some (kids.modify (Node.updateAt f ref) k))
  | _ :: _, .mk i p d none => .mk i p d none

/-- The `while (stack.length)` loop of `hasFlag`. The JavaScript array `stack` is kept with
its top (last element) at the head of the list, so pushing `children[len-1], …, children[0]`
puts `children` in front. -/
def hasFlagLoop (filterFn : Node → Bool) : Nat → List Node → Option Bool
  | _, [] => some false
  | 0, _ :: _ => none
  | fuel + 1, item :: stack =>
    if filterFn item then some true
    else hasFlagLoop filterFn fuel (item.kids ++ stack)

/-- The closure `hasFlag(root)`. -/
def hasFlag (filterFn : Node → Bool) (fuel : Nat) (root : Node) : Option Bool :=
  hasFlagLoop filterFn fuel [root]

/-- The loop `itemChildren.forEach(...)`: the array `children` it fills and the `onDelete`
calls it makes, in order. -/
def shakeForEach (filterFn : Node → Bool) (onDelete : Bool) (fuel : Nat) :
    List Node → Option (List Node × List Node)
  | [] => some ([], [])
  | i :: is =>
    match hasFlag filterFn fuel i with
    | none => none
    | some flag =>
      match shakeForEach filterFn onDelete fuel is with
      | none => none
      | some (children, deleted) =>
        if flag then some (i :: children, deleted)
        else if onDelete then some (children, i :: deleted)
        else some (children, deleted)

/-- The breadth-first `while (queue.length)` loop. State: the synthetic root (through which
every record is reached), the queue of references, and the log of `onDelete` calls. -/
def shakeLoop (filterFn : Node → Bool) (onDelete : Bool) (dfsFuel : Nat) :
    Nat → Node → List (List Nat) → List Node → Option (Node × List Node)
  | _, root, [], log => some (root, log)
  | 0, _, _ :: _, _ => none
  | fuel + 1, root, ref :: queue, log =>
    match root.getAt ref with
    | none => none
    | some item =>
      match shakeForEach filterFn onDelete dfsFuel item.kids with
      | none => none
      | some (children, deleted) =>
        let root' :=
          if children.length ≠ 0 then root.updateAt (fun it => it.setChildren children) ref
          else root.updateAt Node.deleteChildren ref
        shakeLoop filterFn onDelete dfsFuel fuel root'
          (queue ++ (List.range children.length).map fun k => ref ++ [k]) (log ++ deleted)

/-- `treeShake(config)`: `none` when the fuel runs out, `error` for the thrown `Error`,
else the returned forest together with the log of `onDelete` calls. -/
def treeShake (fuel : Nat) (config : Config) : Option (Except String (List Node × List Node)) :=
  match config.filterFn with
  | none => some (.error "请设置正确的过滤回调函数")
  | some filterFn =>
    let root := Node.mk (.symbol 0) .undefined .undefined (some config.tree)
    match shakeLoop filterFn config.onDelete fuel fuel root [[]] [] with
    | none => none
    | some (root', log) => some (.ok (root'.kids, log))

/-! ## Specification-level notions

The definitions below are not translations of code: they restate the notions the
specification uses, and the theorems compare the code with them. -/

mutual
/-- Specification: the record itself or some descendant of it satisfies `P`. -/
def Node.subtreeHas (P : Node → Bool) : Node → Bool
  | .mk i p d none => P (.mk i p d none)
  | .mk i p d (some kids) => P (.mk i p d (some kids)) || forestHas P kids
/-- Specification: some record of the forest, at any depth, satisfies `P`. -/
def forestHas (P : Node → Bool) : List Node → Bool
  | [] => false
  | n :: ns => n.subtreeHas P || forestHas P ns
end

mutual
/-- Specification: a kept record with its children replaced by the pruned children, the
children field being removed when none is left. -/
def pruneNode (P : Node → Bool) : Node → Node
  | .mk i p d none => .mk i p d none
  | .mk i p d (some kids) =>
    match prune P kids with
    | [] => .mk i p d none
    | k :: ks => .mk i p d (some (k :: ks))
/-- Specification: the recursively pruned forest. It keeps, in order, the records whose
subtree contains a record satisfying `P`, each with pruned children. -/
def prune (P : Node → Bool) : List Node → List Node
  | [] => []
  | n :: ns => if n.subtreeHas P then pruneNode P n :: prune P ns else prune P ns
end

/-- The record at a position of a forest: the index of a root followed by child indices. -/
def forestAt (tree : List Node) : List Nat → Option Node
  | [] => none
  | k :: ref =>
    match tree[k]? with
    | none => none
    | some n => n.getAt ref

/-- Specification: a position holds a top-most discarded record when no record of the subtree
at that position satisfies `P` while the subtree at every proper ancestor position does
contain a record satisfying `P`. -/
def IsTopDiscarded (P : Node → Bool) (tree : List Node) (pos : List Nat) : Prop :=
  (∃ n, forestAt tree pos = some n ∧ n.subtreeHas P = false) ∧
  ∀ anc suffix, anc ≠ [] → suffix ≠ [] → pos = anc ++ suffix →
    ∃ m, forestAt tree anc = some m ∧ m.subtreeHas P = true

mutual
/-- Positions, relative to a record, of the top-most discarded records strictly below it. -/
def Node.discardedBelow (P : Node → Bool) : Node → List (List Nat)
  | .mk _ _ _ none => []
  | .mk _ _ _ (some kids) => discardedFrom P 0 kids
/-- Positions of the top-most discarded records of a forest whose first root has index `k`. -/
def discardedFrom (P : Node → Bool) : Nat → List Node → List (List Nat)
  | _, [] => []
  | k, n :: ns =>
    (if n.subtreeHas P then (n.discardedBelow P).map (fun ref => k :: ref) else [[k]])
      ++ discardedFrom P (k + 1) ns
end

mutual
/-- Specification for the round trip: the flat list of a tree, each record without its
children field and with `parentId` set to the id of its parent (`pid` for the roots). -/
def decorateFlat : Val → List Node → List Node
  | _, [] => []
  | pid, n :: ns => (.mk n.id pid n.data none) :: (decorateFlatChildren n ++ decorateFlat pid ns)
/-- The decorated flat list of the descendants of a record. -/
def decorateFlatChildren : Node → List Node
  | .mk i _ _ (some kids) => decorateFlat i kids
  | .mk _ _ _ none => []
end

mutual
/-- Whether two records agree in id, data and, recursively and in order, in their children;
an absent children field counts as no children and `parentId` is not compared. -/
def Node.sameShape : Node → Node → Bool
  | .mk i _ d c, .mk i2 _ d2 c2 => i == i2 && d == d2 && sameShapeKids c c2
/-- Comparison of two children fields, an absent field counting as the empty list. -/
def sameShapeKids : Option (List Node) → Option (List Node) → Bool
  | some a, some b => sameShapeList a b
  | some a, none => sameShapeList a []
  | none, some b => b.isEmpty
  | none, none => true
/-- Whether two forests have the same length and pairwise the same shape. -/
def sameShapeList : List Node → List Node → Bool
  | [], [] => true
  | a :: as, b :: bs => Node.sameShape a b && sameShapeList as bs
  | _, _ => false
end

mutual
/-- Whether every child record, at any depth below `n`, carries as `parentId` the id of the
record it is attached under. -/
def Node.linked : Node → Bool
  | .mk _ _ _ none => true
  | .mk i _ _ (some kids) => linkedUnder i kids
/-- Whether the records of a list all carry `pid` as `parentId` and are themselves linked. -/
def linkedUnder : Val → List Node → Bool
  | _, [] => true
  | pid, n :: ns => (n.parentId == pid) && n.linked && linkedUnder pid ns
end

mutual
/-- Positions, relative to a record, of the records strictly below it, in pre-order. -/
def Node.positionsBelow : Node → List (List Nat)
  | .mk _ _ _ none => []
  | .mk _ _ _ (some kids) => positionsFrom 0 kids
/-- Every position of a forest whose first root has index `k`, in pre-order. -/
def positionsFrom : Nat → List Node → List (List Nat)
  | _, [] => []
  | k, n :: ns =>
    [k] :: ((n.positionsBelow).map (fun ref => k :: ref) ++ positionsFrom (k + 1) ns)
end

/-- Every position of a forest, in pre-order. -/
def positions (tree : List Node) : List (List Nat) := positionsFrom 0 tree

mutual
/-- Specification: the top-most discarded records strictly below a record, left to right. -/
def Node.topDiscardedBelow (P : Node → Bool) : Node → List Node
  | .mk _ _ _ none => []
  | .mk _ _ _ (some kids) => topDiscarded P kids
/-- Specification: the top-most discarded records of a forest, left to right: a root whose
subtree holds no record satisfying `P` is discarded as a whole, under any other root the
search goes on among its children. -/
def topDiscarded (P : Node → Bool) : List Node → List Node
  | [] => []
  | n :: ns => (if n.subtreeHas P then n.topDiscardedBelow P else [n]) ++ topDiscarded P ns
end

/-- Two references are independent when neither leads through the other. -/
def Indep (p q : List Nat) : Prop := ¬ p <+: q ∧ ¬ q <+: p

/-- The field update one iteration of the breadth-first loop performs on the record `item`:
keep the children whose subtree contains a record satisfying `P`, or drop the field. -/
def shallowShake (P : Node → Bool) (item : Node) : Node :=
  if (item.kids.filter (fun c => c.subtreeHas P)).length ≠ 0
  then item.setChildren (item.kids.filter (fun c => c.subtreeHas P))
  else item.deleteChildren

/-- The root after every queued reference has had its subtree pruned. -/
def pruneAll (P : Node → Bool) (root : Node) (queue : List (List Nat)) : Node :=
  queue.foldl (fun r q => r.updateAt (pruneNode P) q) root

/-- Total number of records in the subtrees the queued references denote. -/
def queueSize (root : Node) (queue : List (List Nat)) : Nat :=
  (queue.map fun q => (root.getAt q).elim 0 Node.size).sum

/-- The top-most discarded records strictly below the records the queued references denote. -/
def queueDiscarded (P : Node → Bool) (root : Node) (queue : List (List Nat)) : List Node :=
  queue.flatMap fun q => (root.getAt q).elim [] (Node.topDiscardedBelow P)

/-- Positions of the top-most discarded records of a forest. -/
def discardedPositions (P : Node → Bool) (tree : List Node) : List (List Nat) :=
  discardedFrom P 0 tree

/-- A predicate that does not read the children field of the record it is given. -/
def ChildrenBlind (P : Node → Bool) : Prop :=
  ∀ i p d c c', P (.mk i p d c) = P (.mk i p d c')

/-- A record `{id: k}` without further fields. -/
def leaf (k : Int) : Node := .mk (.num k) .undefined .undefined none

/-- A record `{id: k, children: cs}`. -/
def branch (k : Int) (cs : List Node) : Node := .mk (.num k) .undefined .undefined (some cs)

/-- The tree `[{id:1,children:[{id:2},{id:3,children:[{id:4}]}]}]` of the concrete scenarios. -/
def scenarioTree : List Node := [branch 1 [leaf 2, branch 3 [leaf 4]]]

/-- The predicate `node => node.id === 4`. -/
def idIsFour (n : Node) : Bool := n.id = .num 4

/-- The tree `[{id:1,children:[{id:2},{id:3}]}]`. -/
def twoKidsTree : List Node := [branch 1 [leaf 2, leaf 3]]

/-- The predicate `node => (node.children || []).length === 2`. -/
def hasTwoChildren (n : Node) : Bool := n.kids.length == 2

/-- The ids of all records of a forest, in pre-order. -/
def idsOf (tree : List Node) : List Val := (treeToFlat tree).map Node.id

/-- The flat records of the roots of a forest: children field removed, `parentId` set to `pid`. -/
def recordsOf (pid : Val) (tree : List Node) : List Node :=
  tree.map fun n => .mk n.id pid n.data none

mutual
/-- Specification for the round trip: a record with `parentId` set to `pid`, its children
relinked under its own id, and no children field when it has no child. -/
def relinkNode : Val → Node → Node
  | pid, .mk i _ d none => .mk i pid d none
  | pid, .mk i _ d (some kids) =>
    match relink i kids with
    | [] => .mk i pid d none
    | k :: ks => .mk i pid d (some (k :: ks))
/-- Specification for the round trip: the forest with every record relinked under `pid`. -/
def relink : Val → List Node → List Node
  | _, [] => []
  | pid, n :: ns => relinkNode pid n :: relink pid ns
end

/-- The remaining-records list `rest` holds, for every record of the forest, exactly the flat
records of its children, in order. -/
def GoodRest (tree rest : List Node) : Prop :=
  ∀ n, n ∈ treeToFlat tree →
    rest.filter (fun r => r.parentId = n.id) = recordsOf n.id n.kids

/-- The tree `[{id:0,children:[{id:1}]}]`, whose internal record has a falsy id. -/
def falsyIdTree : List Node := [branch 0 [leaf 1]]

/-- The fields of a record other than its children field. -/
def Node.fields (n : Node) : Val × Val × Val := (n.id, n.parentId, n.data)

/-- A flat list in the sense of the specification (the non-nested representation): no record
brings children of its own. -/
def IsFlatList (flat : List Node) : Prop := ∀ r, r ∈ flat → r.kids = []

/-- Specification: the big-step behaviour of the closure `toTree`. `Built tree rest out rest'`
says that `toTree(tree)`, started with the remaining-records list `rest`, leaves the records of
`tree` as `out` and the remaining-records list as `rest'`. -/
inductive Built : List Node → List Node → List Node → List Node → Prop
  | nil (rest : List Node) : Built [] rest [] rest
  | skip (i : Node) (is rest out rest' : List Node) :
      (rest.filter fun r => r.parentId = i.id).length = 0 →
      Built is (rest.filter fun r => r.parentId ≠ i.id) out rest' →
      Built (i :: is) rest (i :: out) rest'
  | attach (i : Node) (is rest cs rest2 out rest3 : List Node) :
      (rest.filter fun r => r.parentId = i.id).length ≠ 0 →
      Built (rest.filter fun r => r.parentId = i.id) (rest.filter fun r => r.parentId ≠ i.id)
        cs rest2 →
      Built is rest2 out rest3 →
      Built (i :: is) rest (i.setChildren cs :: out) rest3

/-- A flat record `{id: k, parentId: p}`. -/
def child (k p : Int) : Node := .mk (.num k) (.num p) .undefined none

/-- The flat list `[{id:1},{id:2,parentId:1},{id:3,parentId:99}]` of the concrete scenario. -/
def orphanScenario : List Node := [leaf 1, child 2 1, child 3 99]

/-- The flat list `[{id:0},{id:5,parentId:0}]`: the second record points at the falsy id 0. -/
def falsyParentList : List Node := [leaf 0, child 5 0]

/-- The flat list `[{id:1,parentId:1}]`: a record that names itself as parent. -/
def selfParentList : List Node := [child 1 1]

/-- The flat list `[{id:1,parentId:2},{id:2,parentId:1}]`: a cycle of parent references. -/
def cyclicList : List Node := [child 1 2, child 2 1]

/-- The flat list `[{id:1},{id:1},{id:2,parentId:1}]`: two roots share the id 1. -/
def duplicateIdList : List Node := [leaf 1, leaf 1, child 2 1]

/-- A configuration without a callable `filterFn`. -/
def noFilterConfig : Config := ⟨scenarioTree, none, true⟩

/-- The predicate `node => node.id === 1`. -/
def idIsOne (n : Node) : Bool := n.id = .num 1

/-- The tree `[{id:1,children:[]},{id:2}]`: the record satisfying `idIsOne` carries an empty
children array. -/
def emptyKidsTree : List Node := [branch 1 [], leaf 2]

/-- The predicate that no record satisfies. -/
def never (_ : Node) : Bool := false

/-! # Theorems -/

/-! ## Induction over records and forests -/

mutual
/-- Simultaneous induction over records and lists of records: the record half. -/
theorem Node.induct_node {PN : Node → Prop} {PL : List Node → Prop}
    (hnone : ∀ i p d, PN (.mk i p d none))
    (hsome : ∀ i p d kids, PL kids → PN (.mk i p d (some kids)))
    (hnil : PL [])
    (hcons : ∀ n ns, PN n → PL ns → PL (n :: ns)) : ∀ n, PN n
  | .mk i p d none => hnone i p d
  | .mk i p d (some kids) => hsome i p d kids (Node.induct_list hnone hsome hnil hcons kids)
/-- Simultaneous induction over records and lists of records: the list half. -/
theorem Node.induct_list {PN : Node → Prop} {PL : List Node → Prop}
    (hnone : ∀ i p d, PN (.mk i p d none))
    (hsome : ∀ i p d kids, PL kids → PN (.mk i p d (some kids)))
    (hnil : PL [])
    (hcons : ∀ n ns, PN n → PL ns → PL (n :: ns)) : ∀ l, PL l
  | [] => hnil
  | n :: ns => hcons n ns (Node.induct_node hnone hsome hnil hcons n)
      (Node.induct_list hnone hsome hnil hcons ns)
end

/-- Induction over forests: a property of all forests follows from the empty forest and from
the step that adds a root whose children and whose right siblings have the property. -/
theorem forest_induction {PL : List Node → Prop} (hnil : PL [])
    (hcons : ∀ n ns, PL n.kids → PL ns → PL (n :: ns)) : ∀ l, PL l :=
  @Node.induct_list (fun n => PL n.kids) PL
    (fun _ _ _ => hnil) (fun _ _ _ _ h => h) hnil hcons

@[simp] theorem Node.kids_mk_none (i p d : Val) : (Node.mk i p d none).kids = [] := rfl

@[simp] theorem Node.kids_mk_some (i p d : Val) (kids : List Node) :
    (Node.mk i p d (some kids)).kids = kids := rfl

@[simp] theorem Node.id_mk (i p d : Val) (c : Option (List Node)) : (Node.mk i p d c).id = i := rfl

@[simp] theorem Node.parentId_mk (i p d : Val) (c : Option (List Node)) :
    (Node.mk i p d c).parentId = p := rfl

@[simp] theorem Node.data_mk (i p d : Val) (c : Option (List Node)) :
    (Node.mk i p d c).data = d := rfl

@[simp] theorem Node.children_mk (i p d : Val) (c : Option (List Node)) :
    (Node.mk i p d c).children = c := rfl

/-! ## treeToFlat -/

theorem treeToFlatReduce_acc (acc l : List Node) :
    treeToFlatReduce acc l = acc ++ treeToFlatReduce [] l := by
  induction l generalizing acc with
  | nil => simp [treeToFlatReduce]
  | cons n ns ih =>
    rw [treeToFlatReduce, ih, treeToFlatReduce, ih ([] ++ [n] ++ treeToFlatChildren n)]
    simp

theorem treeToFlatChildren_eq (n : Node) : treeToFlatChildren n = treeToFlat n.kids := by
  cases n with
  | mk i p d c => cases c <;> simp [treeToFlatChildren, treeToFlat, treeToFlatReduce]

@[simp] theorem treeToFlat_nil : treeToFlat [] = [] := by
  simp [treeToFlat, treeToFlatReduce]

theorem treeToFlat_cons (n : Node) (ns : List Node) :
    treeToFlat (n :: ns) = n :: (treeToFlat n.kids ++ treeToFlat ns) := by
  rw [treeToFlat, treeToFlatReduce, treeToFlatReduce_acc, treeToFlatChildren_eq]
  simp [treeToFlat]

theorem treeToFlat_append (l1 l2 : List Node) :
    treeToFlat (l1 ++ l2) = treeToFlat l1 ++ treeToFlat l2 := by
  induction l1 with
  | nil => simp
  | cons n ns ih => simp [treeToFlat_cons, ih]

theorem sizeList_kids (n : Node) : n.size = 1 + sizeList n.kids := by
  cases n with
  | mk i p d c => cases c <;> simp [Node.size, sizeList]

theorem length_treeToFlat (l : List Node) : (treeToFlat l).length = sizeList l := by
  induction l using forest_induction with
  | hnil => simp [sizeList]
  | hcons n ns ihk ihs =>
    simp [treeToFlat_cons, sizeList, sizeList_kids, ihk, ihs]
    omega

theorem mem_treeToFlat_of_mem {n : Node} {l : List Node} (h : n ∈ l) : n ∈ treeToFlat l := by
  induction l with
  | nil => cases h
  | cons a as ih =>
    rw [treeToFlat_cons]
    rcases List.mem_cons.1 h with h | h
    · simp [h]
    · simp [ih h]

theorem mem_treeToFlat_kids {n m : Node} {l : List Node} (hn : n ∈ treeToFlat l)
    (hm : m ∈ treeToFlat n.kids) : m ∈ treeToFlat l := by
  induction l using forest_induction with
  | hnil => simp at hn
  | hcons a as ihk ihs =>
    rw [treeToFlat_cons] at hn ⊢
    simp only [List.mem_cons, List.mem_append] at hn ⊢
    rcases hn with hn | hn | hn
    · subst hn; exact Or.inr (Or.inl hm)
    · exact Or.inr (Or.inl (ihk hn))
    · exact Or.inr (Or.inr (ihs hn))

theorem mem_treeToFlat_singleton {n m : Node} :
    m ∈ treeToFlat [n] ↔ m = n ∨ m ∈ treeToFlat n.kids := by
  simp [treeToFlat_cons]

theorem getAt_mem_treeToFlat (ref : List Nat) :
    ∀ (n m : Node), n.getAt ref = some m → m ∈ treeToFlat [n] := by
  induction ref with
  | nil =>
    intro n m h
    simp [Node.getAt] at h
    simp [treeToFlat_cons, h]
  | cons k ref ih =>
    intro n m h
    simp only [Node.getAt] at h
    cases hk : n.kids[k]? with
    | none => simp [hk] at h
    | some c =>
      simp only [hk] at h
      have h1 := ih c m h
      have h2 : c ∈ n.kids := List.getElem?_mem hk
      rw [mem_treeToFlat_singleton]
      right
      rcases mem_treeToFlat_singleton.1 h1 with h4 | h4
      · subst h4; exact mem_treeToFlat_of_mem h2
      · exact mem_treeToFlat_kids (mem_treeToFlat_of_mem h2) h4

theorem forestAt_mem_treeToFlat (tree : List Node) (pos : List Nat) (m : Node)
    (h : forestAt tree pos = some m) : m ∈ treeToFlat tree := by
  cases pos with
  | nil => simp [forestAt] at h
  | cons k ref =>
    simp only [forestAt] at h
    cases hk : tree[k]? with
    | none => simp [hk] at h
    | some c =>
      simp only [hk] at h
      have h1 := getAt_mem_treeToFlat ref c m h
      have h2 : c ∈ tree := List.getElem?_mem hk
      rcases mem_treeToFlat_singleton.1 h1 with h4 | h4
      · subst h4; exact mem_treeToFlat_of_mem h2
      · exact mem_treeToFlat_kids (mem_treeToFlat_of_mem h2) h4

/-! ## Positions -/

theorem positionsBelow_eq (n : Node) : n.positionsBelow = positionsFrom 0 n.kids := by
  cases n with
  | mk i p d c => cases c <;> simp [Node.positionsBelow, positionsFrom]

theorem forestAt_cons_zero (n : Node) (ns : List Node) (ref : List Nat) :
    forestAt (n :: ns) (0 :: ref) = n.getAt ref := by
  simp [forestAt]

theorem forestAt_cons_succ (n : Node) (ns : List Node) (k : Nat) (ref : List Nat) :
    forestAt (n :: ns) ((k + 1) :: ref) = forestAt ns (k :: ref) := by
  simp [forestAt]

theorem getAt_cons (n : Node) (k : Nat) (ref : List Nat) :
    n.getAt (k :: ref) = forestAt n.kids (k :: ref) := by
  simp [forestAt, Node.getAt]

theorem getAt_nil (n : Node) : n.getAt [] = some n := rfl

theorem mem_positionsFrom (l : List Node) :
    ∀ (k : Nat) (pos : List Nat), pos ∈ positionsFrom k l ↔
      ∃ j ref, pos = (k + j) :: ref ∧ (forestAt l (j :: ref)).isSome = true := by
  induction l using forest_induction with
  | hnil =>
    intro k pos
    simp [positionsFrom, forestAt]
  | hcons n ns ihk ihs =>
    intro k pos
    simp only [positionsFrom, List.mem_cons, List.mem_append, List.mem_map, positionsBelow_eq]
    constructor
    · rintro (h | ⟨ref, h, rfl⟩ | h)
      · exact ⟨0, [], by simp [h], by simp [forestAt, Node.getAt]⟩
      · obtain ⟨j, r, rfl, hr⟩ := (ihk 0 ref).1 h
        refine ⟨0, (0 + j) :: r, by simp, ?_⟩
        rw [forestAt_cons_zero, getAt_cons]
        simpa using hr
      · obtain ⟨j, r, rfl, hr⟩ := (ihs (k + 1) pos).1 h
        refine ⟨j + 1, r, by simp; omega, ?_⟩
        rw [forestAt_cons_succ]
        exact hr
    · rintro ⟨j, ref, rfl, hr⟩
      cases j with
      | zero =>
        rw [forestAt_cons_zero] at hr
        cases ref with
        | nil => left; simp
        | cons a r =>
          right; left
          rw [getAt_cons] at hr
          exact ⟨a :: r, (ihk 0 (a :: r)).2 ⟨a, r, by simp, hr⟩, by simp⟩
      | succ j =>
        right; right
        rw [forestAt_cons_succ] at hr
        exact (ihs (k + 1) _).2 ⟨j, ref, by simp; omega, hr⟩

theorem mem_positions (tree : List Node) (pos : List Nat) :
    pos ∈ positions tree ↔ (forestAt tree pos).isSome = true := by
  rw [positions, mem_positionsFrom]
  constructor
  · rintro ⟨j, ref, rfl, h⟩
    simpa using h
  · intro h
    cases pos with
    | nil => simp [forestAt] at h
    | cons j ref => exact ⟨j, ref, by simp, h⟩

theorem nodup_positionsFrom (l : List Node) : ∀ k, (positionsFrom k l).Nodup := by
  induction l using forest_induction with
  | hnil => intro k; simp [positionsFrom]
  | hcons n ns ihk ihs =>
    intro k
    simp only [positionsFrom, positionsBelow_eq]
    rw [List.nodup_cons]
    constructor
    · simp only [List.mem_append, List.mem_map, not_or]
      constructor
      · rintro ⟨ref, h, he⟩
        obtain ⟨j, r, rfl, -⟩ := (mem_positionsFrom _ 0 ref).1 h
        simp at he
      · intro h
        obtain ⟨j, r, he, -⟩ := (mem_positionsFrom _ (k + 1) [k]).1 h
        simp at he
        omega
    · rw [List.nodup_append]
      refine ⟨?_, ihs (k + 1), ?_⟩
      · exact (ihk 0).map (fun a b h => by simpa using h)
      · intro pos h1 h2
        obtain ⟨ref, -, rfl⟩ := List.mem_map.1 h1
        obtain ⟨j, r, he, -⟩ := (mem_positionsFrom _ (k + 1) _).1 h2
        simp at he
        omega

theorem map_forestAt_positionsFrom (l : List Node) :
    ∀ k, (positionsFrom k l).map (fun pos => forestAt l (pos.modifyHead (· - k)))
      = (treeToFlat l).map some := by
  induction l using forest_induction with
  | hnil => intro k; simp [positionsFrom]
  | hcons n ns ihk ihs =>
    intro k
    simp only [positionsFrom, positionsBelow_eq, List.map_cons, List.map_append, List.map_map,
      treeToFlat_cons]
    congr 1
    · simp [forestAt, Node.getAt]
    · congr 1
      · rw [← ihk 0]
        apply List.map_congr_left
        intro pos hpos
        obtain ⟨j, r, rfl, -⟩ := (mem_positionsFrom _ 0 pos).1 hpos
        simp [forestAt, Node.getAt]
      · rw [← ihs (k + 1)]
        apply List.map_congr_left
        intro pos hpos
        obtain ⟨j, r, rfl, -⟩ := (mem_positionsFrom _ (k + 1) pos).1 hpos
        have : k + 1 + j - k = (k + 1 + j - (k + 1)) + 1 := by omega
        simp only [List.modifyHead_cons, this, forestAt_cons_succ]

theorem map_forestAt_positions (tree : List Node) :
    (positions tree).map (forestAt tree) = (treeToFlat tree).map some := by
  have h := map_forestAt_positionsFrom tree 0
  rw [positions, ← h]
  apply List.map_congr_left
  intro pos _
  cases pos <;> simp

/-- C10: `treeToFlat` lists every record of the tree exactly once, in pre-order. Its length
is the number of records; read along the pre-order list of all positions of the tree (each
position occurring once) it yields exactly the records at those positions; and a root comes
first, followed by the flattening of its children, followed by the flattening of its right
siblings. -/
theorem treeToFlat_preorder (tree : List Node) :
    (treeToFlat tree).length = sizeList tree ∧
    (positions tree).map (forestAt tree) = (treeToFlat tree).map some ∧
    (positions tree).Nodup ∧
    (∀ pos, pos ∈ positions tree ↔ (forestAt tree pos).isSome = true) ∧
    treeToFlat [] = [] ∧
    ∀ n ns, treeToFlat (n :: ns) = n :: (treeToFlat n.kids ++ treeToFlat ns) :=
  ⟨length_treeToFlat tree, map_forestAt_positions tree, nodup_positionsFrom tree 0,
    mem_positions tree, treeToFlat_nil, treeToFlat_cons⟩

/-! ## getLeavesFromTree -/

theorem getLeavesFromTreeReduce_acc (acc l : List Node) :
    getLeavesFromTreeReduce acc l = acc ++ getLeavesFromTreeReduce [] l := by
  induction l generalizing acc with
  | nil => simp [getLeavesFromTreeReduce]
  | cons n ns ih =>
    rw [getLeavesFromTreeReduce, ih, getLeavesFromTreeReduce, ih ([] ++ getLeavesFromTreeArg n)]
    simp

theorem getLeavesFromTreeArg_eq (n : Node) :
    getLeavesFromTreeArg n = if n.kids.length ≠ 0 then getLeavesFromTree n.kids else [n] := by
  cases n with
  | mk i p d c => cases c <;> simp [getLeavesFromTreeArg, getLeavesFromTree]

@[simp] theorem getLeavesFromTree_nil : getLeavesFromTree [] = [] := by
  simp [getLeavesFromTree, getLeavesFromTreeReduce]

theorem getLeavesFromTree_cons (n : Node) (ns : List Node) :
    getLeavesFromTree (n :: ns) =
      (if n.kids.length ≠ 0 then getLeavesFromTree n.kids else [n]) ++ getLeavesFromTree ns := by
  rw [getLeavesFromTree, getLeavesFromTreeReduce, getLeavesFromTreeReduce_acc,
    getLeavesFromTreeArg_eq]
  simp [getLeavesFromTree]

theorem getLeavesFromTree_eq_filter (tree : List Node) :
    getLeavesFromTree tree = (treeToFlat tree).filter (fun n => n.kids.length == 0) := by
  induction tree using forest_induction with
  | hnil => simp
  | hcons n ns ihk ihs =>
    rw [getLeavesFromTree_cons, treeToFlat_cons, List.filter_cons, List.filter_append, ← ihk, ← ihs]
    by_cases h : n.kids.length = 0
    · have hk : n.kids = [] := List.length_eq_zero.1 h
      simp [h, hk]
    · simp [h]

/-- C9: `getLeavesFromTree` is `treeToFlat` restricted, in order, to the records whose
children field is absent or empty: each emitted record has no children, and a record of
`treeToFlat` is left out exactly when it is internal (has at least one child). -/
theorem getLeavesFromTree_spec (tree : List Node) :
    getLeavesFromTree tree = (treeToFlat tree).filter (fun n => n.kids.length == 0) ∧
    (∀ n, n ∈ getLeavesFromTree tree → n.kids = []) ∧
    (∀ n, n ∈ treeToFlat tree → (n ∉ getLeavesFromTree tree ↔ n.kids ≠ [])) := by
  refine ⟨getLeavesFromTree_eq_filter tree, ?_, ?_⟩
  · intro n hn
    rw [getLeavesFromTree_eq_filter, List.mem_filter] at hn
    exact List.length_eq_zero.1 (by simpa using hn.2)
  · intro n hn
    rw [getLeavesFromTree_eq_filter, List.mem_filter]
    simp [hn]

/-! ## getNodeFromTree -/

theorem getNodeFromTreeReduce_some (id : Val) (a : Node) (l : List Node) :
    getNodeFromTreeReduce id (some a) l = some a := by
  induction l with
  | nil => simp [getNodeFromTreeReduce]
  | cons n ns ih => rw [getNodeFromTreeReduce]; simpa using ih

theorem getNodeFromTreeChildren_eq (id : Val) (n : Node) :
    getNodeFromTreeChildren id n = getNodeFromTree id n.kids := by
  cases n with
  | mk i p d c => cases c <;> simp [getNodeFromTreeChildren, getNodeFromTree, getNodeFromTreeReduce]

@[simp] theorem getNodeFromTree_nil (id : Val) : getNodeFromTree id [] = none := by
  simp [getNodeFromTree, getNodeFromTreeReduce]

theorem getNodeFromTree_cons (id : Val) (n : Node) (ns : List Node) :
    getNodeFromTree id (n :: ns) =
      if n.id = id then some n
      else (getNodeFromTree id n.kids).or (getNodeFromTree id ns) := by
  rw [getNodeFromTree, getNodeFromTreeReduce, getNodeFromTreeChildren_eq]
  by_cases h : n.id = id
  · simp [h, getNodeFromTreeReduce_some]
  · cases hk : getNodeFromTree id n.kids with
    | none => simp [h, hk, getNodeFromTree]
    | some a => simp [h, hk, getNodeFromTreeReduce_some]

theorem getNodeFromTree_eq_find (id : Val) (tree : List Node) :
    getNodeFromTree id tree = (treeToFlat tree).find? (fun n => n.id == id) := by
  induction tree using forest_induction with
  | hnil => simp
  | hcons n ns ihk ihs =>
    rw [getNodeFromTree_cons, treeToFlat_cons, List.find?_cons, List.find?_append, ← ihk, ← ihs]
    by_cases h : n.id = id
    · simp [h]
    · have hb : (n.id == id) = false := by simpa using h
      simp [h, hb]

theorem getNodeFromTree_present (id : Val) (tree : List Node) :
    (∃ n, n ∈ treeToFlat tree ∧ n.id = id) →
      ∃ m, getNodeFromTree id tree = some m ∧ m.id = id ∧ m ∈ treeToFlat tree := by
  rintro ⟨n, hn, hid⟩
  rw [getNodeFromTree_eq_find]
  cases hf : (treeToFlat tree).find? (fun n => n.id == id) with
  | none =>
    rw [List.find?_eq_none] at hf
    exact absurd (by simpa using hid) (hf n hn)
  | some m =>
    exact ⟨m, rfl, by simpa using List.find?_some hf, List.mem_of_find?_eq_some hf⟩

/-- C6: `getNodeFromTree` returns the first record of the pre-order flattening whose id
equals the wanted id (whether or not ids repeat); when some record of the tree carries the
id, the result is a record with that id. -/
theorem getNodeFromTree_first_match (id : Val) (tree : List Node) :
    getNodeFromTree id tree = (treeToFlat tree).find? (fun n => n.id == id) ∧
    ((∃ n, n ∈ treeToFlat tree ∧ n.id = id) →
      ∃ m, getNodeFromTree id tree = some m ∧ m.id = id ∧ m ∈ treeToFlat tree) :=
  ⟨getNodeFromTree_eq_find id tree, getNodeFromTree_present id tree⟩

/-- Witness for C6: the lookup of id 4 in the scenario tree. -/
theorem getNodeFromTree_first_match_witness :
    getNodeFromTree (.num 4) scenarioTree = some (leaf 4) ∧
    getNodeFromTree (.num 4) scenarioTree =
      (treeToFlat scenarioTree).find? (fun n => n.id == .num 4) :=
  ⟨by decide, (getNodeFromTree_first_match (.num 4) scenarioTree).1⟩

/-! ## getNodePathFromTree -/

theorem findPathChildren_eq (id : Val) (n : Node) (path : List Node) :
    findPathChildren id n path =
      if n.kids.length ≠ 0 then some (findPath id n.kids (path ++ [n])) else none := by
  cases n with
  | mk i p d c => cases c <;> simp [findPathChildren]

theorem findPath_cons (id : Val) (n : Node) (ns path : List Node) :
    findPath id (n :: ns) path =
      if n.id = id then (true, path ++ [n])
      else if n.kids.length ≠ 0 then
        (if !(findPath id n.kids (path ++ [n])).1
          then findPath id ns (findPath id n.kids (path ++ [n])).2.dropLast
          else (true, (findPath id n.kids (path ++ [n])).2))
      else findPath id ns path := by
  rw [findPath, findPathChildren_eq]
  by_cases h : n.id = id
  · simp [h]
  · by_cases hk : n.kids.length = 0
    · simp [h, hk]
    · simp [h, hk]

/-- A search either fails and leaves the path as it found it, or succeeds and appends a
chain from a root of the searched forest down to the record `getNodeFromTree` returns. -/
theorem findPath_spec (id : Val) (tree : List Node) :
    ∀ path : List Node,
      (getNodeFromTree id tree = none ∧ findPath id tree path = (false, path)) ∨
      (∃ s m, getNodeFromTree id tree = some m ∧
        findPath id tree path = (true, path ++ (s ++ [m])) ∧
        List.Chain' (fun a b => b ∈ a.kids) (s ++ [m]) ∧
        ∃ r, (s ++ [m]).head? = some r ∧ r ∈ tree) := by
  induction tree using forest_induction with
  | hnil => intro path; left; simp [findPath]
  | hcons n ns ihk ihs =>
    intro path
    rw [findPath_cons, getNodeFromTree_cons]
    by_cases h : n.id = id
    · right
      refine ⟨[], n, by simp [h], by simp [h], by simp, n, by simp, by simp⟩
    · by_cases hk : n.kids.length = 0
      · have hk2 : n.kids = [] := List.length_eq_zero.1 hk
        rcases ihs path with ⟨h1, h2⟩ | ⟨s, m, h1, h2, h3, r, h4, h5⟩
        · left; simp [h, hk, hk2, h1, h2]
        · right
          exact ⟨s, m, by simp [h, hk2, h1], by simp [h, hk, h2], h3, r, h4,
            List.mem_cons_of_mem _ h5⟩
      · rcases ihk (path ++ [n]) with ⟨h1, h2⟩ | ⟨s, m, h1, h2, h3, r, h4, h5⟩
        · rcases ihs path with ⟨g1, g2⟩ | ⟨s, m, g1, g2, g3, r, g4, g5⟩
          · left; simp [h, hk, h1, h2, g1, g2]
          · right
            exact ⟨s, m, by simp [h, h1, g1], by simp [h, hk, h2, g2], g3, r, g4,
              List.mem_cons_of_mem _ g5⟩
        · right
          refine ⟨n :: s, m, by simp [h, h1], by simp [h, hk, h2], ?_, n, by simp, by simp⟩
          rw [List.cons_append, List.chain'_cons']
          refine ⟨?_, h3⟩
          intro y hy
          rw [h4] at hy
          cases hy
          exact h5

/-- C8: when no record of the tree carries the id, `getNodeFromTree` returns `null` and
`getNodePathFromTree` returns the empty array; whatever the path stack held when a search
started, a failed search hands it back unchanged (every push is undone by a pop). -/
theorem not_found_results (id : Val) (tree : List Node)
    (habsent : ∀ n, n ∈ treeToFlat tree → n.id ≠ id) :
    getNodeFromTree id tree = none ∧ getNodePathFromTree id tree = [] ∧
    ∀ path, findPath id tree path = (false, path) := by
  have hnone : getNodeFromTree id tree = none := by
    rw [getNodeFromTree_eq_find, List.find?_eq_none]
    intro n hn
    simpa using habsent n hn
  have hall : ∀ path, findPath id tree path = (false, path) := by
    intro path
    rcases findPath_spec id tree path with ⟨_, h2⟩ | ⟨s, m, h1, _⟩
    · exact h2
    · rw [hnone] at h1; cases h1
  exact ⟨hnone, by simp [getNodePathFromTree, hall], hall⟩

/-- Witness for C8: the search for the absent id 9 in the scenario tree. -/
theorem not_found_results_witness :
    (∀ n, n ∈ treeToFlat scenarioTree → n.id ≠ .num 9) ∧
    getNodeFromTree (.num 9) scenarioTree = none ∧
    getNodePathFromTree (.num 9) scenarioTree = [] ∧
    ∀ path, findPath (.num 9) scenarioTree path = (false, path) :=
  ⟨by decide, not_found_results (.num 9) scenarioTree (by decide)⟩

/-- C7: when some record of the tree carries the id, `getNodePathFromTree` returns a
non-empty path that ends in the very record `getNodeFromTree` returns, starts at a root of the
tree, and in which every element after the first is a direct child of its predecessor. -/
theorem getNodePathFromTree_chain (id : Val) (tree : List Node)
    (hpresent : ∃ n, n ∈ treeToFlat tree ∧ n.id = id) :
    getNodePathFromTree id tree ≠ [] ∧
    (getNodePathFromTree id tree).getLast? = getNodeFromTree id tree ∧
    (∃ m, getNodeFromTree id tree = some m ∧ m.id = id) ∧
    (∃ r, (getNodePathFromTree id tree).head? = some r ∧ r ∈ tree) ∧
    List.Chain' (fun a b => b ∈ a.kids) (getNodePathFromTree id tree) ∧
    getNodePathFromTree (.num 4) scenarioTree =
      [branch 1 [leaf 2, branch 3 [leaf 4]], branch 3 [leaf 4], leaf 4] := by
  obtain ⟨m0, hm0, hid0, -⟩ := (getNodeFromTree_present id tree) hpresent
  rcases findPath_spec id tree [] with ⟨h1, _⟩ | ⟨s, m, h1, h2, h3, r, h4, h5⟩
  · rw [hm0] at h1; cases h1
  · have hp : getNodePathFromTree id tree = s ++ [m] := by
      simp [getNodePathFromTree, h2]
    rw [hp, h1]
    refine ⟨by simp, by simp, ⟨m, rfl, ?_⟩, ⟨r, h4, h5⟩, h3, by decide⟩
    rw [hm0] at h1
    cases h1
    exact hid0

/-- Witness for C7: the search for id 4 in the scenario tree. -/
theorem getNodePathFromTree_chain_witness :
    (∃ n, n ∈ treeToFlat scenarioTree ∧ n.id = .num 4) ∧
    getNodePathFromTree (.num 4) scenarioTree ≠ [] ∧
    (getNodePathFromTree (.num 4) scenarioTree).getLast? =
      getNodeFromTree (.num 4) scenarioTree ∧
    (∃ m, getNodeFromTree (.num 4) scenarioTree = some m ∧ m.id = .num 4) ∧
    (∃ r, (getNodePathFromTree (.num 4) scenarioTree).head? = some r ∧ r ∈ scenarioTree) ∧
    List.Chain' (fun a b => b ∈ a.kids) (getNodePathFromTree (.num 4) scenarioTree) ∧
    getNodePathFromTree (.num 4) scenarioTree =
      [branch 1 [leaf 2, branch 3 [leaf 4]], branch 3 [leaf 4], leaf 4] :=
  ⟨⟨leaf 4, by decide, rfl⟩,
    getNodePathFromTree_chain (.num 4) scenarioTree ⟨leaf 4, by decide, rfl⟩⟩

/-! ## References into a tree -/

theorem updateAt_nil (f : Node → Node) (n : Node) : n.updateAt f [] = f n := by
  cases n; rfl

theorem updateAt_cons_kids (f : Node → Node) (k : Nat) (ref : List Nat) (n : Node) :
    (n.updateAt f (k :: ref)).kids = n.kids.modify (Node.updateAt f ref) k := by
  cases n with
  | mk i p d c => cases c <;> simp [Node.updateAt]

theorem modify_comm_ne {α : Type} (f g : α → α) (l : List α) {k j : Nat} (h : k ≠ j) :
    (l.modify f k).modify g j = (l.modify g j).modify f k := by
  apply List.ext_getElem?
  intro m
  simp only [List.getElem?_modify]
  cases l[m]? with
  | none => simp
  | some a =>
    by_cases h1 : k = m <;> by_cases h2 : j = m <;> simp [h1, h2]
    omega

theorem modify_modify_same {α : Type} (f g : α → α) (l : List α) (k : Nat) :
    (l.modify f k).modify g k = l.modify (fun a => g (f a)) k := by
  apply List.ext_getElem?
  intro m
  simp only [List.getElem?_modify]
  cases l[m]? with
  | none => simp
  | some a => by_cases h1 : k = m <;> simp [h1]

theorem modify_congr_at {α : Type} (f g : α → α) (l : List α) (k : Nat)
    (h : ∀ a, l[k]? = some a → f a = g a) : l.modify f k = l.modify g k := by
  apply List.ext_getElem?
  intro m
  simp only [List.getElem?_modify]
  cases hm : l[m]? with
  | none => simp
  | some a =>
    by_cases h1 : k = m
    · subst h1; simp [h a hm]
    · simp [h1]

theorem indep_cons_cons {i j : Nat} {p q : List Nat} (h : Indep (i :: p) (j :: q)) (hij : i = j) :
    Indep p q := by
  subst hij
  unfold Indep at h ⊢
  simpa [List.cons_prefix_cons] using h

theorem not_indep_nil_left (q : List Nat) : ¬ Indep [] q := by
  intro h; exact h.1 (List.nil_prefix)

theorem not_indep_nil_right (p : List Nat) : ¬ Indep p [] := by
  intro h; exact h.2 (List.nil_prefix)

theorem Indep.symm {p q : List Nat} (h : Indep p q) : Indep q p := ⟨h.2, h.1⟩

theorem getAt_updateAt_indep (f : Node → Node) (ref : List Nat) :
    ∀ (q : List Nat) (root : Node), Indep ref q →
      (root.updateAt f ref).getAt q = root.getAt q := by
  induction ref with
  | nil => intro q root h; exact absurd h (not_indep_nil_left q)
  | cons k r ih =>
    intro q root h
    cases q with
    | nil => exact absurd h (not_indep_nil_right _)
    | cons j q =>
      simp only [Node.getAt, updateAt_cons_kids, List.getElem?_modify]
      cases hj : root.kids[j]? with
      | none => simp
      | some c =>
        by_cases hkj : k = j
        · simp [hkj, ih q c (indep_cons_cons h hkj)]
        · simp [hkj]

theorem getAt_updateAt_same (f : Node → Node) (ref : List Nat) :
    ∀ (root item : Node), root.getAt ref = some item →
      (root.updateAt f ref).getAt ref = some (f item) := by
  induction ref with
  | nil =>
    intro root item h
    simp [Node.getAt] at h
    simp [updateAt_nil, Node.getAt, h]
  | cons k r ih =>
    intro root item h
    simp only [Node.getAt, updateAt_cons_kids, List.getElem?_modify] at h ⊢
    cases hk : root.kids[k]? with
    | none => simp [hk] at h
    | some c =>
      simp only [hk] at h
      simp [ih c item h]

theorem getAt_append (ref r : List Nat) :
    ∀ root : Node, root.getAt (ref ++ r) = (root.getAt ref).bind (fun n => n.getAt r) := by
  induction ref with
  | nil => intro root; simp [Node.getAt]
  | cons k t ih =>
    intro root
    simp only [List.cons_append, Node.getAt]
    cases root.kids[k]? with
    | none => simp
    | some c => simp [ih c]

theorem updateAt_cons (f : Node → Node) (k : Nat) (ref : List Nat) (n : Node) :
    n.updateAt f (k :: ref) = n.updateAt (fun m => m.updateAt f ref) [k] := by
  cases n with
  | mk i p d c =>
    cases c with
    | none => simp [Node.updateAt]
    | some kids => simp only [Node.updateAt]

theorem updateAt_comm (f g : Node → Node) (p : List Nat) :
    ∀ (q : List Nat) (root : Node), Indep p q →
      (root.updateAt f p).updateAt g q = (root.updateAt g q).updateAt f p := by
  induction p with
  | nil => intro q root h; exact absurd h (not_indep_nil_left q)
  | cons k r ih =>
    intro q root h
    cases q with
    | nil => exact absurd h (not_indep_nil_right _)
    | cons j q =>
      cases root with
      | mk i pa d c =>
        cases c with
        | none => simp [Node.updateAt]
        | some kids =>
          simp only [Node.updateAt]
          congr 2
          by_cases hkj : k = j
          · subst hkj
            rw [modify_modify_same, modify_modify_same]
            congr 1
            funext a
            exact ih q a (indep_cons_cons h rfl)
          · exact modify_comm_ne _ _ _ hkj

theorem updateAt_updateAt_same (f g : Node → Node) (p : List Nat) :
    ∀ root : Node, (root.updateAt f p).updateAt g p = root.updateAt (fun n => g (f n)) p := by
  induction p with
  | nil => intro root; simp [updateAt_nil]
  | cons k r ih =>
    intro root
    cases root with
    | mk i pa d c =>
      cases c with
      | none => simp [Node.updateAt]
      | some kids =>
        simp only [Node.updateAt]
        congr 2
        rw [modify_modify_same]
        congr 1
        funext a
        exact ih a

theorem updateAt_append (f : Node → Node) (p q : List Nat) :
    ∀ root : Node, root.updateAt f (p ++ q) = root.updateAt (fun n => n.updateAt f q) p := by
  induction p with
  | nil => intro root; simp [updateAt_nil]
  | cons k r ih =>
    intro root
    cases root with
    | mk i pa d c =>
      cases c with
      | none => simp [Node.updateAt]
      | some kids =>
        simp only [List.cons_append, Node.updateAt]
        congr 2
        congr 1
        funext a
        exact ih a

theorem updateAt_congr (f g : Node → Node) (p : List Nat) :
    ∀ (root item : Node), root.getAt p = some item → f item = g item →
      root.updateAt f p = root.updateAt g p := by
  induction p with
  | nil =>
    intro root item h hfg
    simp [Node.getAt] at h
    simp [updateAt_nil, h, hfg]
  | cons k r ih =>
    intro root item h hfg
    cases root with
    | mk i pa d c =>
      cases c with
      | none => simp [Node.updateAt]
      | some kids =>
        simp only [Node.updateAt]
        congr 2
        apply modify_congr_at
        intro a ha
        simp only [Node.getAt, Node.kids_mk_some, ha] at h
        exact ih a item h hfg

/-! ## hasFlag -/

theorem sizeList_append (l1 l2 : List Node) : sizeList (l1 ++ l2) = sizeList l1 + sizeList l2 := by
  induction l1 with
  | nil => simp [sizeList]
  | cons n ns ih => simp [sizeList, ih]; omega

theorem size_pos (n : Node) : 0 < n.size := by
  rw [sizeList_kids]; omega

theorem subtreeHas_eq (P : Node → Bool) (n : Node) :
    n.subtreeHas P = (P n || forestHas P n.kids) := by
  cases n with
  | mk i p d c => cases c <;> simp [Node.subtreeHas, forestHas]

theorem forestHas_append (P : Node → Bool) (l1 l2 : List Node) :
    forestHas P (l1 ++ l2) = (forestHas P l1 || forestHas P l2) := by
  induction l1 with
  | nil => simp [forestHas]
  | cons n ns ih => simp [forestHas, ih, Bool.or_assoc]

theorem hasFlagLoop_spec (P : Node → Bool) :
    ∀ (fuel : Nat) (stack : List Node), sizeList stack ≤ fuel →
      hasFlagLoop P fuel stack = some (forestHas P stack) := by
  intro fuel
  induction fuel with
  | zero =>
    intro stack h
    cases stack with
    | nil => simp [hasFlagLoop, forestHas]
    | cons n ns =>
      have := size_pos n
      simp [sizeList] at h
      omega
  | succ fuel ih =>
    intro stack h
    cases stack with
    | nil => simp [hasFlagLoop, forestHas]
    | cons n ns =>
      rw [hasFlagLoop]
      by_cases hp : P n = true
      · simp [hp, forestHas, subtreeHas_eq]
      · have hsz : sizeList (n.kids ++ ns) ≤ fuel := by
          rw [sizeList_append]
          simp only [sizeList, sizeList_kids] at h
          omega
        simp [hp, ih _ hsz, forestHas, forestHas_append, subtreeHas_eq]

theorem hasFlag_spec (P : Node → Bool) (fuel : Nat) (n : Node) (h : n.size ≤ fuel) :
    hasFlag P fuel n = some (n.subtreeHas P) := by
  rw [hasFlag, hasFlagLoop_spec P fuel [n] (by simpa [sizeList] using h)]
  simp [forestHas]

theorem shakeForEach_spec (P : Node → Bool) (onDelete : Bool) (fuel : Nat) :
    ∀ l : List Node, sizeList l ≤ fuel →
      shakeForEach P onDelete fuel l =
        some (l.filter (fun c => c.subtreeHas P),
          if onDelete then l.filter (fun c => !c.subtreeHas P) else []) := by
  intro l
  induction l with
  | nil => intro _; simp [shakeForEach]
  | cons n ns ih =>
    intro h
    simp only [sizeList] at h
    rw [shakeForEach, hasFlag_spec P fuel n (by omega), ih (by omega)]
    cases hn : n.subtreeHas P <;> cases onDelete <;> simp [hn]

/-! ## prune -/

theorem prune_eq (P : Node → Bool) (l : List Node) :
    prune P l = (l.filter (fun c => c.subtreeHas P)).map (pruneNode P) := by
  induction l with
  | nil => simp [prune]
  | cons n ns ih =>
    rw [prune, ih]
    cases hn : n.subtreeHas P <;> simp [hn]

theorem foldl_modify_range {α : Type} (g : α → α) (j : Nat) :
    ∀ (l : List α) (m : Nat),
      ((List.range j).foldl (fun l k => l.modify g k) l)[m]? =
        (fun a => if m < j then g a else a) <$> l[m]? := by
  induction j with
  | zero => intro l m; simp
  | succ j ih =>
    intro l m
    rw [List.range_succ, List.foldl_append]
    simp only [List.foldl_cons, List.foldl_nil, List.getElem?_modify, ih]
    cases l[m]? with
    | none => simp
    | some a =>
      by_cases h1 : j = m
      · subst h1; simp
      · by_cases h2 : m < j
        · have h3 : m < j + 1 := by omega
          simp [h1, h2, h3]
        · have h3 : ¬ m < j + 1 := by omega
          simp [h1, h2, h3]

theorem foldl_modify_range_length {α : Type} (g : α → α) (l : List α) :
    (List.range l.length).foldl (fun l k => l.modify g k) l = l.map g := by
  apply List.ext_getElem?
  intro m
  rw [foldl_modify_range, List.getElem?_map]
  cases hm : l[m]? with
  | none => simp
  | some a =>
    have : m < l.length := by
      rcases List.getElem?_eq_some.1 hm with ⟨h, _⟩
      exact h
    simp [this]

theorem foldl_updateAt_singleton (g : Node → Node) (i p d : Val) (ks : List Nat) :
    ∀ l : List Node,
      ks.foldl (fun m k => m.updateAt g [k]) (Node.mk i p d (some l)) =
        Node.mk i p d (some (ks.foldl (fun l k => l.modify g k) l)) := by
  induction ks with
  | nil => intro l; simp
  | cons k ks ih =>
    intro l
    simp only [List.foldl_cons]
    rw [← ih]
    congr 1

theorem pruneNode_eq_fold (P : Node → Bool) (item : Node) :
    (List.range (item.kids.filter (fun c => c.subtreeHas P)).length).foldl
      (fun m k => m.updateAt (pruneNode P) [k]) (shallowShake P item) = pruneNode P item := by
  cases item with
  | mk i p d c =>
    cases c with
    | none => simp [shallowShake, pruneNode, Node.deleteChildren]
    | some kids =>
      cases hk : kids.filter (fun c => c.subtreeHas P) with
      | nil => simp [shallowShake, pruneNode, Node.deleteChildren, prune_eq, hk]
      | cons a as =>
        simp only [shallowShake, Node.kids_mk_some, hk, Node.setChildren]
        rw [if_pos (by simp), foldl_updateAt_singleton, foldl_modify_range_length]
        simp [pruneNode, prune_eq, hk]

theorem topDiscardedBelow_eq (P : Node → Bool) (n : Node) :
    n.topDiscardedBelow P = topDiscarded P n.kids := by
  cases n with
  | mk i p d c => cases c <;> simp [Node.topDiscardedBelow, topDiscarded]

theorem topDiscarded_perm (P : Node → Bool) (l : List Node) :
    (topDiscarded P l).Perm
      (l.filter (fun c => !c.subtreeHas P) ++
        (l.filter (fun c => c.subtreeHas P)).flatMap (Node.topDiscardedBelow P)) := by
  induction l with
  | nil => simp [topDiscarded]
  | cons n ns ih =>
    rw [topDiscarded]
    cases hn : n.subtreeHas P
    · simpa [hn] using ih
    · simp only [hn, if_true, List.filter_cons, Bool.not_true, Bool.false_eq_true, if_false,
        List.flatMap_cons]
      refine (List.Perm.append_left _ ih).trans ?_
      rw [← List.append_assoc, ← List.append_assoc]
      exact List.Perm.append_right _ List.perm_append_comm

/-! ## The breadth-first loop of treeShake -/

theorem pruneAll_cons (P : Node → Bool) (root : Node) (q : List Nat) (qs : List (List Nat)) :
    pruneAll P root (q :: qs) = pruneAll P (root.updateAt (pruneNode P) q) qs := rfl

theorem pruneAll_comm (P : Node → Bool) (f : Node → Node) (ref : List Nat) :
    ∀ (queue : List (List Nat)) (root : Node), (∀ q, q ∈ queue → Indep ref q) →
      pruneAll P (root.updateAt f ref) queue = (pruneAll P root queue).updateAt f ref := by
  intro queue
  induction queue with
  | nil => intro root _; rfl
  | cons q qs ih =>
    intro root h
    rw [pruneAll_cons, pruneAll_cons, updateAt_comm f _ ref q root (h q (by simp))]
    exact ih _ (fun q' hq' => h q' (List.mem_cons_of_mem _ hq'))

theorem getAt_pruneAll (P : Node → Bool) (ref : List Nat) :
    ∀ (queue : List (List Nat)) (root : Node), (∀ q, q ∈ queue → Indep ref q) →
      (pruneAll P root queue).getAt ref = root.getAt ref := by
  intro queue
  induction queue with
  | nil => intro root _; rfl
  | cons q qs ih =>
    intro root h
    rw [pruneAll_cons, ih _ (fun q' hq' => h q' (List.mem_cons_of_mem _ hq'))]
    exact getAt_updateAt_indep _ q ref root (h q (by simp)).symm

theorem foldl_updateAt_kidrefs (g s : Node → Node) (ref : List Nat) (X : Node) :
    ∀ n : Nat,
      ((List.range n).map (fun k => ref ++ [k])).foldl (fun r q => r.updateAt g q)
          (X.updateAt s ref) =
        X.updateAt (fun m => (List.range n).foldl (fun m k => m.updateAt g [k]) (s m)) ref := by
  intro n
  induction n with
  | zero => simp
  | succ n ih =>
    rw [List.range_succ, List.map_append, List.foldl_append, ih]
    simp only [List.map_cons, List.map_nil, List.foldl_cons, List.foldl_nil]
    rw [updateAt_append, updateAt_updateAt_same]
    congr 1
    funext m
    rw [List.foldl_append]
    rfl

theorem shallowShake_kids (P : Node → Bool) (item : Node) :
    (shallowShake P item).kids = item.kids.filter (fun c => c.subtreeHas P) := by
  cases item with
  | mk i p d c =>
    unfold shallowShake
    split
    · simp [Node.setChildren]
    · rename_i h
      have h2 := List.length_eq_zero.1 (not_not.1 h)
      simp [Node.deleteChildren, h2]

theorem map_getElem?_range {α : Type} (l : List α) :
    (List.range l.length).map (fun k => l[k]?) = l.map some := by
  apply List.ext_getElem?
  intro m
  simp only [List.getElem?_map]
  by_cases h : m < l.length
  · simp [List.getElem?_range h, List.getElem?_eq_getElem h]
  · have h1 : (List.range l.length)[m]? = none := by
      apply List.getElem?_eq_none; simp; omega
    have h2 : l[m]? = none := List.getElem?_eq_none (by omega)
    simp [h1, h2]

theorem getAt_singleton (n : Node) (k : Nat) : n.getAt [k] = n.kids[k]? := by
  simp only [Node.getAt]
  cases n.kids[k]? <;> rfl

theorem getAt_kidrefs (P : Node → Bool) (root item : Node) (ref : List Nat)
    (h : root.getAt ref = some item) :
    ((List.range (item.kids.filter (fun c => c.subtreeHas P)).length).map
        (fun k => ref ++ [k])).map (fun q => (root.updateAt (shallowShake P) ref).getAt q) =
      (item.kids.filter (fun c => c.subtreeHas P)).map some := by
  rw [List.map_map, ← map_getElem?_range]
  apply List.map_congr_left
  intro k _
  simp only [Function.comp, getAt_append, getAt_updateAt_same _ ref root item h,
    getAt_singleton]
  rw [← shallowShake_kids]
  rfl

theorem prefix_append_singleton_cases (q ref : List Nat) (k : Nat)
    (h : q <+: ref ++ [k]) : q <+: ref ∨ q = ref ++ [k] := by
  obtain ⟨t, ht⟩ := h
  rcases List.eq_nil_or_concat t with rfl | ⟨t', b, rfl⟩
  · right; simpa using ht
  · left
    rw [List.concat_eq_append, ← List.append_assoc] at ht
    have := List.append_inj_left' ht rfl
    exact ⟨t', this⟩

theorem indep_append_singleton {ref q : List Nat} (h : Indep ref q) (k : Nat) :
    Indep q (ref ++ [k]) := by
  constructor
  · intro hp
    rcases prefix_append_singleton_cases q ref k hp with h1 | h1
    · exact h.2 h1
    · apply h.1
      rw [h1]
      exact List.prefix_append _ _
  · intro hp
    exact h.1 ((List.prefix_append ref [k]).trans hp)

theorem indep_kidrefs (ref : List Nat) {j k : Nat} (h : j ≠ k) :
    Indep (ref ++ [j]) (ref ++ [k]) := by
  constructor
  · intro hp
    rw [List.prefix_append_right_inj] at hp
    simp at hp
    exact h hp
  · intro hp
    rw [List.prefix_append_right_inj] at hp
    simp at hp
    exact h hp.symm

theorem map_getAt_step (P : Node → Bool) (root item : Node) (ref : List Nat)
    (queue : List (List Nat)) (h : root.getAt ref = some item)
    (hind : ∀ q, q ∈ queue → Indep ref q) :
    (queue ++ (List.range (item.kids.filter (fun c => c.subtreeHas P)).length).map
        (fun k => ref ++ [k])).map (fun q => (root.updateAt (shallowShake P) ref).getAt q) =
      queue.map (fun q => root.getAt q) ++
        (item.kids.filter (fun c => c.subtreeHas P)).map some := by
  rw [List.map_append, getAt_kidrefs P root item ref h]
  congr 1
  apply List.map_congr_left
  intro q hq
  exact getAt_updateAt_indep _ ref q root (hind q hq)

theorem queueSize_eq (root : Node) (queue : List (List Nat)) :
    queueSize root queue =
      ((queue.map (fun q => root.getAt q)).map (fun o => o.elim 0 Node.size)).sum := by
  simp only [queueSize, List.map_map]
  rfl

theorem queueDiscarded_eq (P : Node → Bool) (root : Node) (queue : List (List Nat)) :
    queueDiscarded P root queue =
      (queue.map (fun q => root.getAt q)).flatMap
        (fun o => o.elim [] (Node.topDiscardedBelow P)) := by
  simp only [queueDiscarded, List.flatMap, List.map_map]
  rfl

theorem sizeList_eq_sum (l : List Node) : sizeList l = (l.map Node.size).sum := by
  induction l with
  | nil => simp [sizeList]
  | cons n ns ih => simp [sizeList, ih]

theorem sizeList_filter_le (p : Node → Bool) (l : List Node) :
    sizeList (l.filter p) ≤ sizeList l := by
  induction l with
  | nil => simp
  | cons n ns ih =>
    rw [List.filter_cons]
    split <;> simp only [sizeList] <;> omega

theorem queueSize_step (P : Node → Bool) (root item : Node) (ref : List Nat)
    (queue : List (List Nat)) (h : root.getAt ref = some item)
    (hind : ∀ q, q ∈ queue → Indep ref q) :
    queueSize (root.updateAt (shallowShake P) ref)
        (queue ++ (List.range (item.kids.filter (fun c => c.subtreeHas P)).length).map
          (fun k => ref ++ [k])) =
      queueSize root queue + sizeList (item.kids.filter (fun c => c.subtreeHas P)) := by
  rw [queueSize_eq, map_getAt_step P root item ref queue h hind, List.map_append,
    List.sum_append, ← queueSize_eq, sizeList_eq_sum, List.map_map]
  rfl

theorem queueDiscarded_step (P : Node → Bool) (root item : Node) (ref : List Nat)
    (queue : List (List Nat)) (h : root.getAt ref = some item)
    (hind : ∀ q, q ∈ queue → Indep ref q) :
    queueDiscarded P (root.updateAt (shallowShake P) ref)
        (queue ++ (List.range (item.kids.filter (fun c => c.subtreeHas P)).length).map
          (fun k => ref ++ [k])) =
      queueDiscarded P root queue ++
        (item.kids.filter (fun c => c.subtreeHas P)).flatMap (Node.topDiscardedBelow P) := by
  rw [queueDiscarded_eq, map_getAt_step P root item ref queue h hind, List.flatMap_append,
    ← queueDiscarded_eq]
  simp only [List.flatMap, List.map_map]
  rfl

theorem pruneAll_append (P : Node → Bool) (root : Node) (q1 q2 : List (List Nat)) :
    pruneAll P root (q1 ++ q2) = pruneAll P (pruneAll P root q1) q2 := by
  simp [pruneAll, List.foldl_append]

theorem pruneAll_step (P : Node → Bool) (root item : Node) (ref : List Nat)
    (queue : List (List Nat)) (h : root.getAt ref = some item)
    (hind : ∀ q, q ∈ queue → Indep ref q) :
    pruneAll P (root.updateAt (shallowShake P) ref)
        (queue ++ (List.range (item.kids.filter (fun c => c.subtreeHas P)).length).map
          (fun k => ref ++ [k])) =
      pruneAll P root (ref :: queue) := by
  rw [pruneAll_append, pruneAll_comm P _ ref queue root hind, pruneAll_cons,
    pruneAll_comm P _ ref queue root hind]
  have hX : (pruneAll P root queue).getAt ref = some item := by
    rw [getAt_pruneAll P ref queue root hind, h]
  have hfold := foldl_updateAt_kidrefs (pruneNode P) (shallowShake P) ref (pruneAll P root queue)
    (item.kids.filter (fun c => c.subtreeHas P)).length
  unfold pruneAll at hfold ⊢
  rw [hfold]
  exact updateAt_congr _ _ ref _ item hX (pruneNode_eq_fold P item)

theorem pairwise_indep_step (ref : List Nat) (queue : List (List Nat)) (n : Nat)
    (h : (ref :: queue).Pairwise Indep) :
    (queue ++ (List.range n).map (fun k => ref ++ [k])).Pairwise Indep := by
  rw [List.pairwise_cons] at h
  rw [List.pairwise_append]
  refine ⟨h.2, ?_, ?_⟩
  · rw [List.pairwise_map]
    exact (List.nodup_range n).imp (fun hne => indep_kidrefs ref hne)
  · intro a ha b hb
    obtain ⟨k, -, rfl⟩ := List.mem_map.1 hb
    exact indep_append_singleton (h.1 a ha) k

theorem valid_step (P : Node → Bool) (root item : Node) (ref : List Nat)
    (queue : List (List Nat)) (h : root.getAt ref = some item)
    (hind : ∀ q, q ∈ queue → Indep ref q)
    (hval : ∀ q, q ∈ queue → (root.getAt q).isSome = true) :
    ∀ q, q ∈ queue ++ (List.range (item.kids.filter (fun c => c.subtreeHas P)).length).map
        (fun k => ref ++ [k]) →
      ((root.updateAt (shallowShake P) ref).getAt q).isSome = true := by
  intro q hq
  have hmap := map_getAt_step P root item ref queue h hind
  have hmem : (root.updateAt (shallowShake P) ref).getAt q ∈
      queue.map (fun q => root.getAt q) ++
        (item.kids.filter (fun c => c.subtreeHas P)).map some := by
    rw [← hmap]
    exact List.mem_map.2 ⟨q, hq, rfl⟩
  rcases List.mem_append.1 hmem with h1 | h1
  · obtain ⟨q', hq', he⟩ := List.mem_map.1 h1
    rw [← he]
    exact hval q' hq'
  · obtain ⟨c, -, he⟩ := List.mem_map.1 h1
    rw [← he]
    rfl

theorem shakeLoop_nil (P : Node → Bool) (onDelete : Bool) (dfsFuel fuel : Nat) (root : Node)
    (log : List Node) : shakeLoop P onDelete dfsFuel fuel root [] log = some (root, log) := by
  cases fuel <;> simp [shakeLoop]

theorem shakeLoop_step (P : Node → Bool) (onDelete : Bool) (dfsFuel fuel : Nat) (root item : Node)
    (ref : List Nat) (queue : List (List Nat)) (log : List Node)
    (hitem : root.getAt ref = some item) (hd : item.size ≤ dfsFuel) :
    shakeLoop P onDelete dfsFuel (fuel + 1) root (ref :: queue) log =
      shakeLoop P onDelete dfsFuel fuel (root.updateAt (shallowShake P) ref)
        (queue ++ (List.range (item.kids.filter (fun c => c.subtreeHas P)).length).map
          (fun k => ref ++ [k]))
        (log ++ if onDelete then item.kids.filter (fun c => !c.subtreeHas P) else []) := by
  have hfe := shakeForEach_spec P onDelete dfsFuel item.kids
    (by rw [sizeList_kids] at hd; omega)
  have hroot : (if (item.kids.filter (fun c => c.subtreeHas P)).length ≠ 0
      then root.updateAt (fun it => it.setChildren (item.kids.filter (fun c => c.subtreeHas P))) ref
      else root.updateAt Node.deleteChildren ref) = root.updateAt (shallowShake P) ref := by
    split
    · rename_i h
      exact updateAt_congr _ _ ref root item hitem (by simp [shallowShake, h])
    · rename_i h
      exact updateAt_congr _ _ ref root item hitem (by simp [shallowShake, h])
  simp only [shakeLoop, hitem, hfe]
  rw [hroot]

theorem shakeLoop_spec (P : Node → Bool) (onDelete : Bool) (dfsFuel : Nat) :
    ∀ (fuel : Nat) (root : Node) (queue : List (List Nat)) (log : List Node),
      queue.Pairwise Indep →
      (∀ q, q ∈ queue → (root.getAt q).isSome = true) →
      queueSize root queue ≤ fuel → queueSize root queue ≤ dfsFuel →
      ∃ L, shakeLoop P onDelete dfsFuel fuel root queue log =
          some (pruneAll P root queue, log ++ L) ∧
        L.Perm (if onDelete then queueDiscarded P root queue else []) := by
  intro fuel
  induction fuel with
  | zero =>
    intro root queue log _ hval hf _
    cases queue with
    | nil => exact ⟨[], by simp [shakeLoop_nil, pruneAll], by simp [queueDiscarded]⟩
    | cons ref queue =>
      exfalso
      obtain ⟨item, hitem⟩ := Option.isSome_iff_exists.1 (hval ref (by simp))
      have := size_pos item
      simp [queueSize, hitem] at hf
      omega
  | succ fuel ih =>
    intro root queue log hind hval hf hd
    cases queue with
    | nil => exact ⟨[], by simp [shakeLoop_nil, pruneAll], by simp [queueDiscarded]⟩
    | cons ref queue =>
      obtain ⟨item, hitem⟩ := Option.isSome_iff_exists.1 (hval ref (by simp))
      have hsz : queueSize root (ref :: queue) = item.size + queueSize root queue := by
        simp [queueSize, hitem]
      have hindr : ∀ q, q ∈ queue → Indep ref q := (List.pairwise_cons.1 hind).1
      have hkept := sizeList_filter_le (fun c => c.subtreeHas P) item.kids
      have hitemsz := sizeList_kids item
      have hstep := queueSize_step P root item ref queue hitem hindr
      rw [shakeLoop_step P onDelete dfsFuel fuel root item ref queue log hitem (by omega)]
      obtain ⟨L, hL, hperm⟩ := ih (root.updateAt (shallowShake P) ref) _
        (log ++ if onDelete then item.kids.filter (fun c => !c.subtreeHas P) else [])
        (pairwise_indep_step ref queue _ hind)
        (valid_step P root item ref queue hitem hindr
          (fun q hq => hval q (List.mem_cons_of_mem _ hq)))
        (by omega) (by omega)
      refine ⟨(if onDelete then item.kids.filter (fun c => !c.subtreeHas P) else []) ++ L, ?_, ?_⟩
      · rw [hL, pruneAll_step P root item ref queue hitem hindr, List.append_assoc]
      · cases onDelete with
        | false => simpa using hperm
        | true =>
          simp only [if_true] at hperm ⊢
          rw [queueDiscarded_step P root item ref queue hitem hindr] at hperm
          have hq : queueDiscarded P root (ref :: queue) =
              item.topDiscardedBelow P ++ queueDiscarded P root queue := by
            simp [queueDiscarded, hitem]
          rw [hq, topDiscardedBelow_eq]
          refine (List.Perm.append_left _ hperm).trans ?_
          refine List.Perm.trans ?_ (List.Perm.append_right _ (topDiscarded_perm P item.kids).symm)
          simp only [List.append_assoc]
          apply List.Perm.append_left
          exact List.perm_append_comm

theorem pruneNode_kids (P : Node → Bool) (n : Node) : (pruneNode P n).kids = prune P n.kids := by
  cases n with
  | mk i p d c =>
    cases c with
    | none => simp [pruneNode, prune]
    | some kids =>
      simp only [pruneNode, Node.kids_mk_some]
      cases prune P kids <;> simp

theorem treeShake_result (P : Node → Bool) (onDelete : Bool) (tree : List Node) (fuel : Nat)
    (hfuel : sizeList tree + 1 ≤ fuel) :
    ∃ L, treeShake fuel ⟨tree, some P, onDelete⟩ = some (.ok (prune P tree, L)) ∧
      L.Perm (if onDelete then topDiscarded P tree else []) := by
  have hsize : queueSize (Node.mk (.symbol 0) .undefined .undefined (some tree)) [[]] ≤ fuel := by
    simp [queueSize, Node.getAt, Node.size]
    omega
  obtain ⟨L, hL, hperm⟩ := shakeLoop_spec P onDelete fuel fuel
    (Node.mk (.symbol 0) .undefined .undefined (some tree)) [[]] []
    (by simp) (by simp [Node.getAt]) hsize hsize
  refine ⟨L, ?_, ?_⟩
  · simp only [treeShake, hL]
    simp [pruneAll, updateAt_nil, pruneNode_kids]
  · simpa [queueDiscarded, Node.getAt, Node.topDiscardedBelow] using hperm

/-- C1: for every tree and predicate, `treeShake` (given fuel for its loops) returns exactly
the recursively pruned forest `prune P tree`: it keeps, in order, the records whose subtree in
the input contains a record satisfying `P`, with children pruned the same way and the children
field removed when no child is left. On the scenario tree with `id === 4` the result is
`[{id:1,children:[{id:3,children:[{id:4}]}]}]` and `{id:2}` is reported to `onDelete`. -/
theorem treeShake_eq_prune (P : Node → Bool) (onDelete : Bool) (tree : List Node) (fuel : Nat)
    (hfuel : sizeList tree + 1 ≤ fuel) :
    (∃ log, treeShake fuel ⟨tree, some P, onDelete⟩ = some (.ok (prune P tree, log))) ∧
    treeShake 5 ⟨scenarioTree, some idIsFour, true⟩ =
      some (.ok ([branch 1 [branch 3 [leaf 4]]], [leaf 2])) := by
  obtain ⟨L, hL, -⟩ := treeShake_result P onDelete tree fuel hfuel
  exact ⟨⟨L, hL⟩, rfl⟩

/-- Witness for C1 on the scenario tree. -/
theorem treeShake_eq_prune_witness :
    sizeList scenarioTree + 1 ≤ 5 ∧
    ((∃ log, treeShake 5 ⟨scenarioTree, some idIsFour, true⟩ =
        some (.ok (prune idIsFour scenarioTree, log))) ∧
      treeShake 5 ⟨scenarioTree, some idIsFour, true⟩ =
        some (.ok ([branch 1 [branch 3 [leaf 4]]], [leaf 2]))) :=
  ⟨by decide, treeShake_eq_prune idIsFour true scenarioTree 5 (by decide)⟩

/-! ## Records of the pruned forest -/

theorem prune_cons (P : Node → Bool) (n : Node) (ns : List Node) :
    prune P (n :: ns) = if n.subtreeHas P then pruneNode P n :: prune P ns else prune P ns := by
  rw [prune]

theorem mem_treeToFlat_prune (P : Node → Bool) (l : List Node) :
    ∀ n, n ∈ treeToFlat (prune P l) →
      ∃ m, m ∈ treeToFlat l ∧ n = pruneNode P m ∧ m.subtreeHas P = true := by
  induction l using forest_induction with
  | hnil => intro n hn; simp [prune] at hn
  | hcons a as ihk ihs =>
    intro n hn
    rw [prune_cons] at hn
    cases ha : a.subtreeHas P with
    | false =>
      simp only [ha, Bool.false_eq_true, if_false] at hn
      obtain ⟨m, hm, h1, h2⟩ := ihs n hn
      exact ⟨m, by rw [treeToFlat_cons]; simp [hm], h1, h2⟩
    | true =>
      simp only [ha, if_true] at hn
      rw [treeToFlat_cons, pruneNode_kids] at hn
      simp only [List.mem_cons, List.mem_append] at hn
      rcases hn with hn | hn | hn
      · exact ⟨a, by rw [treeToFlat_cons]; simp, hn, ha⟩
      · obtain ⟨m, hm, h1, h2⟩ := ihk n hn
        exact ⟨m, by rw [treeToFlat_cons]; simp [hm], h1, h2⟩
      · obtain ⟨m, hm, h1, h2⟩ := ihs n hn
        exact ⟨m, by rw [treeToFlat_cons]; simp [hm], h1, h2⟩

theorem pruneNode_fields (P : Node → Bool) (i p d : Val) (c : Option (List Node)) :
    ∃ c', pruneNode P (.mk i p d c) = .mk i p d c' := by
  cases c with
  | none => exact ⟨none, by simp [pruneNode]⟩
  | some kids =>
    simp only [pruneNode]
    cases prune P kids with
    | nil => exact ⟨none, rfl⟩
    | cons k ks => exact ⟨some (k :: ks), rfl⟩

theorem blind_pruneNode (P : Node → Bool) (hP : ChildrenBlind P) (n : Node) :
    P (pruneNode P n) = P n := by
  cases n with
  | mk i p d c =>
    obtain ⟨c', hc⟩ := pruneNode_fields P i p d c
    rw [hc]
    exact hP i p d c' c

theorem subtreeHas_pruneNode_of (P : Node → Bool) (hP : ChildrenBlind P) (n : Node)
    (h : forestHas P (prune P n.kids) = forestHas P n.kids) :
    (pruneNode P n).subtreeHas P = n.subtreeHas P := by
  rw [subtreeHas_eq, subtreeHas_eq, blind_pruneNode P hP, pruneNode_kids, h]

theorem forestHas_prune (P : Node → Bool) (hP : ChildrenBlind P) (l : List Node) :
    forestHas P (prune P l) = forestHas P l := by
  induction l using forest_induction with
  | hnil => simp [prune]
  | hcons a as ihk ihs =>
    rw [prune_cons]
    cases ha : a.subtreeHas P with
    | false => simp [ha, forestHas, ihs]
    | true =>
      simp only [if_true, forestHas, ihs, subtreeHas_pruneNode_of P hP a ihk, ha]

theorem subtreeHas_pruneNode (P : Node → Bool) (hP : ChildrenBlind P) (n : Node) :
    (pruneNode P n).subtreeHas P = n.subtreeHas P :=
  subtreeHas_pruneNode_of P hP n (forestHas_prune P hP n.kids)

theorem pruneNode_idem_of (P : Node → Bool) (n : Node)
    (h : prune P (prune P n.kids) = prune P n.kids) :
    pruneNode P (pruneNode P n) = pruneNode P n := by
  cases n with
  | mk i p d c =>
    cases c with
    | none => simp [pruneNode]
    | some kids =>
      simp only [Node.kids_mk_some] at h
      simp only [pruneNode]
      cases hk : prune P kids with
      | nil => simp [pruneNode]
      | cons k ks =>
        simp only [pruneNode]
        rw [hk] at h
        rw [h]

theorem prune_idem (P : Node → Bool) (hP : ChildrenBlind P) (l : List Node) :
    prune P (prune P l) = prune P l := by
  induction l using forest_induction with
  | hnil => simp [prune]
  | hcons a as ihk ihs =>
    rw [prune_cons]
    cases ha : a.subtreeHas P with
    | false => simpa [ha] using ihs
    | true =>
      simp only [if_true]
      rw [prune_cons, subtreeHas_pruneNode P hP, ha, if_pos rfl, ihs, pruneNode_idem_of P a ihk]

theorem topDiscarded_prune (P : Node → Bool) (hP : ChildrenBlind P) (l : List Node) :
    topDiscarded P (prune P l) = [] := by
  induction l using forest_induction with
  | hnil => simp [prune, topDiscarded]
  | hcons a as ihk ihs =>
    rw [prune_cons]
    cases ha : a.subtreeHas P with
    | false => simpa [ha] using ihs
    | true =>
      simp only [if_true]
      rw [topDiscarded, subtreeHas_pruneNode P hP, ha, if_pos rfl, ihs, topDiscardedBelow_eq,
        pruneNode_kids, ihk]
      rfl

theorem sizeList_prune_le (P : Node → Bool) (l : List Node) :
    sizeList (prune P l) ≤ sizeList l := by
  induction l using forest_induction with
  | hnil => simp [prune]
  | hcons a as ihk ihs =>
    rw [prune_cons]
    have h1 : (pruneNode P a).size ≤ a.size := by
      rw [sizeList_kids, sizeList_kids a, pruneNode_kids]
      omega
    split <;> simp only [sizeList] <;> omega

theorem childrenBlind_idIsFour : ChildrenBlind idIsFour := by
  intro i p d c c'
  rfl

/-- C2 as stated fails: with the predicate "has exactly two children" the tree
`[{id:1,children:[{id:2},{id:3}]}]` is pruned to `[{id:1}]`, whose only record neither
satisfies the predicate nor has a descendant that does. -/
theorem twoChildren_breaks_output_property :
    treeShake 4 ⟨twoKidsTree, some hasTwoChildren, true⟩ =
      some (.ok ([leaf 1], [leaf 2, leaf 3])) ∧
    ¬ (∀ n, n ∈ treeToFlat [leaf 1] → n.subtreeHas hasTwoChildren = true) := by
  refine ⟨rfl, ?_⟩
  intro h
  have := h (leaf 1) (by decide)
  revert this
  decide

/-- C2 (amended): every record anywhere in the output of `treeShake` is the pruned form of a
record of the input tree that itself, or through a descendant, satisfied `P` in the input tree;
and when `P` does not read the children field, the output record itself or one of its
descendants satisfies `P`. -/
theorem treeShake_output_nodes (P : Node → Bool) (onDelete : Bool) (tree : List Node)
    (fuel : Nat) (hfuel : sizeList tree + 1 ≤ fuel) :
    ∃ out log, treeShake fuel ⟨tree, some P, onDelete⟩ = some (.ok (out, log)) ∧
      (∀ n, n ∈ treeToFlat out →
        ∃ m, m ∈ treeToFlat tree ∧ n = pruneNode P m ∧ m.subtreeHas P = true) ∧
      (ChildrenBlind P → ∀ n, n ∈ treeToFlat out → n.subtreeHas P = true) := by
  obtain ⟨L, hL, -⟩ := treeShake_result P onDelete tree fuel hfuel
  refine ⟨prune P tree, L, hL, mem_treeToFlat_prune P tree, ?_⟩
  intro hP n hn
  obtain ⟨m, -, rfl, hm⟩ := mem_treeToFlat_prune P tree n hn
  rw [subtreeHas_pruneNode P hP, hm]

/-- Witness for C2 on the scenario tree. -/
theorem treeShake_output_nodes_witness :
    sizeList scenarioTree + 1 ≤ 5 ∧
    ∃ out log, treeShake 5 ⟨scenarioTree, some idIsFour, true⟩ = some (.ok (out, log)) ∧
      (∀ n, n ∈ treeToFlat out →
        ∃ m, m ∈ treeToFlat scenarioTree ∧ n = pruneNode idIsFour m ∧
          m.subtreeHas idIsFour = true) ∧
      (ChildrenBlind idIsFour → ∀ n, n ∈ treeToFlat out → n.subtreeHas idIsFour = true) :=
  ⟨by decide, treeShake_output_nodes idIsFour true scenarioTree 5 (by decide)⟩

/-- C4 as stated fails: with the predicate "has exactly two children" the first call turns
`[{id:1,children:[{id:2},{id:3}]}]` into `[{id:1}]`, and a second call on that result returns
the empty forest and discards `{id:1}`. -/
theorem twoChildren_breaks_idempotence :
    treeShake 4 ⟨twoKidsTree, some hasTwoChildren, true⟩ =
      some (.ok ([leaf 1], [leaf 2, leaf 3])) ∧
    treeShake 4 ⟨[leaf 1], some hasTwoChildren, true⟩ = some (.ok ([], [leaf 1])) ∧
    ([] : List Node) ≠ [leaf 1] :=
  ⟨rfl, rfl, by decide⟩

/-- C4 (amended): for a predicate that does not read the children field `treeShake` is
idempotent: a second call on the result of the first returns that same forest and reports
no record to `onDelete`. -/
theorem treeShake_idempotent (P : Node → Bool) (hP : ChildrenBlind P) (onDelete : Bool)
    (tree : List Node) (fuel : Nat) (hfuel : sizeList tree + 1 ≤ fuel) :
    ∃ R log, treeShake fuel ⟨tree, some P, onDelete⟩ = some (.ok (R, log)) ∧
      treeShake fuel ⟨R, some P, true⟩ = some (.ok (R, [])) := by
  obtain ⟨L, hL, -⟩ := treeShake_result P onDelete tree fuel hfuel
  have hsz := sizeList_prune_le P tree
  obtain ⟨L2, hL2, hperm⟩ := treeShake_result P true (prune P tree) fuel (by omega)
  rw [if_pos rfl, topDiscarded_prune P hP] at hperm
  rw [List.Perm.eq_nil hperm, prune_idem P hP] at hL2
  exact ⟨prune P tree, L, hL, hL2⟩

/-- Witness for C4 on the scenario tree. -/
theorem treeShake_idempotent_witness :
    ChildrenBlind idIsFour ∧ sizeList scenarioTree + 1 ≤ 5 ∧
    ∃ R log, treeShake 5 ⟨scenarioTree, some idIsFour, true⟩ = some (.ok (R, log)) ∧
      treeShake 5 ⟨R, some idIsFour, true⟩ = some (.ok (R, [])) :=
  ⟨childrenBlind_idIsFour, by decide,
    treeShake_idempotent idIsFour childrenBlind_idIsFour true scenarioTree 5 (by decide)⟩

/-! ## Positions of the discarded records -/

theorem discardedBelow_eq (P : Node → Bool) (n : Node) :
    n.discardedBelow P = discardedFrom P 0 n.kids := by
  cases n with
  | mk i p d c => cases c <;> simp [Node.discardedBelow, discardedFrom]

theorem discardedFrom_cons (P : Node → Bool) (k : Nat) (n : Node) (ns : List Node) :
    discardedFrom P k (n :: ns) =
      (if n.subtreeHas P then (discardedFrom P 0 n.kids).map (fun ref => k :: ref) else [[k]])
        ++ discardedFrom P (k + 1) ns := by
  rw [discardedFrom, discardedBelow_eq]

theorem isTopDiscarded_zero_nil (P : Node → Bool) (n : Node) (ns : List Node) :
    IsTopDiscarded P (n :: ns) [0] ↔ n.subtreeHas P = false := by
  constructor
  · rintro ⟨⟨m, hm, hm2⟩, -⟩
    simp [forestAt, Node.getAt] at hm
    rw [hm]; exact hm2
  · intro h
    refine ⟨⟨n, by simp [forestAt, Node.getAt], h⟩, ?_⟩
    intro anc suffix ha hs he
    exfalso
    have hl := congrArg List.length he
    simp at hl
    have h1 : 0 < anc.length := List.length_pos.2 ha
    have h2 : 0 < suffix.length := List.length_pos.2 hs
    omega

theorem isTopDiscarded_zero_cons (P : Node → Bool) (n : Node) (ns : List Node) (a : Nat)
    (r : List Nat) :
    IsTopDiscarded P (n :: ns) (0 :: a :: r) ↔
      n.subtreeHas P = true ∧ IsTopDiscarded P n.kids (a :: r) := by
  constructor
  · rintro ⟨⟨m, hm, hm2⟩, hanc⟩
    refine ⟨?_, ⟨m, ?_, hm2⟩, ?_⟩
    · obtain ⟨m', h1, h2⟩ := hanc [0] (a :: r) (by simp) (by simp) (by simp)
      simp [forestAt, Node.getAt] at h1
      rw [h1]; exact h2
    · rw [forestAt_cons_zero, getAt_cons] at hm; exact hm
    · intro anc suffix ha hs he
      obtain ⟨m', h1, h2⟩ := hanc (0 :: anc) suffix (by simp) hs (by simp [he])
      refine ⟨m', ?_, h2⟩
      rw [forestAt_cons_zero] at h1
      cases anc with
      | nil => exact absurd rfl ha
      | cons x y => rw [getAt_cons] at h1; exact h1
  · rintro ⟨hn, ⟨m, hm, hm2⟩, hanc⟩
    refine ⟨⟨m, ?_, hm2⟩, ?_⟩
    · rw [forestAt_cons_zero, getAt_cons]; exact hm
    · intro anc suffix ha hs he
      cases anc with
      | nil => exact absurd rfl ha
      | cons x anc' =>
        rw [List.cons_append] at he
        injection he with h1 h2
        subst h1
        cases anc' with
        | nil => exact ⟨n, by simp [forestAt, Node.getAt], hn⟩
        | cons y z =>
          obtain ⟨m', h3, h4⟩ := hanc (y :: z) suffix (by simp) hs h2
          exact ⟨m', by rw [forestAt_cons_zero, getAt_cons]; exact h3, h4⟩

theorem isTopDiscarded_succ (P : Node → Bool) (n : Node) (ns : List Node) (j : Nat)
    (ref : List Nat) :
    IsTopDiscarded P (n :: ns) ((j + 1) :: ref) ↔ IsTopDiscarded P ns (j :: ref) := by
  constructor
  · rintro ⟨⟨m, hm, hm2⟩, hanc⟩
    refine ⟨⟨m, by rw [forestAt_cons_succ] at hm; exact hm, hm2⟩, ?_⟩
    intro anc suffix ha hs he
    cases anc with
    | nil => exact absurd rfl ha
    | cons x anc' =>
      rw [List.cons_append] at he
      injection he with h1 h2
      subst h1
      obtain ⟨m', h3, h4⟩ := hanc ((j + 1) :: anc') suffix (by simp) hs (by simp [h2])
      exact ⟨m', by rw [forestAt_cons_succ] at h3; exact h3, h4⟩
  · rintro ⟨⟨m, hm, hm2⟩, hanc⟩
    refine ⟨⟨m, by rw [forestAt_cons_succ]; exact hm, hm2⟩, ?_⟩
    intro anc suffix ha hs he
    cases anc with
    | nil => exact absurd rfl ha
    | cons x anc' =>
      rw [List.cons_append] at he
      injection he with h1 h2
      subst h1
      obtain ⟨m', h3, h4⟩ := hanc (j :: anc') suffix (by simp) hs (by simp [h2])
      exact ⟨m', by rw [forestAt_cons_succ]; exact h3, h4⟩

theorem not_isTopDiscarded_nil (P : Node → Bool) (l : List Node) : ¬ IsTopDiscarded P l [] := by
  rintro ⟨⟨m, hm, -⟩, -⟩
  simp [forestAt] at hm

theorem mem_discardedFrom (P : Node → Bool) (l : List Node) :
    ∀ (k : Nat) (pos : List Nat), pos ∈ discardedFrom P k l ↔
      ∃ j ref, pos = (k + j) :: ref ∧ IsTopDiscarded P l (j :: ref) := by
  induction l using forest_induction with
  | hnil =>
    intro k pos
    simp only [discardedFrom, List.not_mem_nil, false_iff]
    rintro ⟨j, ref, -, ⟨m, hm, -⟩, -⟩
    simp [forestAt] at hm
  | hcons n ns ihk ihs =>
    intro k pos
    rw [discardedFrom_cons, List.mem_append]
    constructor
    · rintro (h | h)
      · cases hn : n.subtreeHas P with
        | false =>
          simp only [hn, Bool.false_eq_true, if_false, List.mem_singleton] at h
          exact ⟨0, [], by simp [h], (isTopDiscarded_zero_nil P n ns).2 hn⟩
        | true =>
          simp only [hn, if_true, List.mem_map] at h
          obtain ⟨ref, hr, rfl⟩ := h
          obtain ⟨j, r, rfl, hr2⟩ := (ihk 0 ref).1 hr
          refine ⟨0, (0 + j) :: r, by simp, ?_⟩
          rw [isTopDiscarded_zero_cons]
          exact ⟨hn, by simpa using hr2⟩
      · obtain ⟨j, r, rfl, hr⟩ := (ihs (k + 1) pos).1 h
        exact ⟨j + 1, r, by simp; omega, (isTopDiscarded_succ P n ns j r).2 hr⟩
    · rintro ⟨j, ref, rfl, hr⟩
      cases j with
      | zero =>
        left
        cases ref with
        | nil =>
          have hn := (isTopDiscarded_zero_nil P n ns).1 hr
          simp [hn]
        | cons a r =>
          obtain ⟨hn, hr2⟩ := (isTopDiscarded_zero_cons P n ns a r).1 hr
          simp only [hn, if_true, List.mem_map]
          exact ⟨a :: r, (ihk 0 (a :: r)).2 ⟨a, r, by simp, hr2⟩, by simp⟩
      | succ j =>
        right
        exact (ihs (k + 1) _).2 ⟨j, ref, by simp; omega, (isTopDiscarded_succ P n ns j ref).1 hr⟩

theorem mem_discardedPositions (P : Node → Bool) (tree : List Node) (pos : List Nat) :
    pos ∈ discardedPositions P tree ↔ IsTopDiscarded P tree pos := by
  rw [discardedPositions, mem_discardedFrom]
  constructor
  · rintro ⟨j, ref, rfl, h⟩
    simpa using h
  · intro h
    cases pos with
    | nil => exact absurd h (not_isTopDiscarded_nil P tree)
    | cons j ref => exact ⟨j, ref, by simp, h⟩

theorem discardedFrom_sublist (P : Node → Bool) (l : List Node) :
    ∀ k, (discardedFrom P k l).Sublist (positionsFrom k l) := by
  induction l using forest_induction with
  | hnil => intro k; simp [discardedFrom, positionsFrom]
  | hcons n ns ihk ihs =>
    intro k
    rw [discardedFrom_cons, positionsFrom, positionsBelow_eq]
    cases hn : n.subtreeHas P with
    | false =>
      simp only [Bool.false_eq_true, if_false, List.singleton_append]
      exact List.Sublist.cons₂ _ ((ihs (k + 1)).trans (List.sublist_append_right _ _))
    | true =>
      simp only [if_true]
      exact List.Sublist.cons _ (List.Sublist.append ((ihk 0).map _) (ihs (k + 1)))

theorem nodup_discardedPositions (P : Node → Bool) (tree : List Node) :
    (discardedPositions P tree).Nodup :=
  (nodup_positionsFrom tree 0).sublist (discardedFrom_sublist P tree 0)

theorem map_forestAt_discardedFrom (P : Node → Bool) (l : List Node) :
    ∀ k, (discardedFrom P k l).map (fun pos => forestAt l (pos.modifyHead (· - k)))
      = (topDiscarded P l).map some := by
  induction l using forest_induction with
  | hnil => intro k; simp [discardedFrom, topDiscarded]
  | hcons n ns ihk ihs =>
    intro k
    rw [discardedFrom_cons, topDiscarded, topDiscardedBelow_eq, List.map_append, List.map_append]
    congr 1
    · cases hn : n.subtreeHas P with
      | false => simp [forestAt, Node.getAt]
      | true =>
        simp only [if_true, List.map_map]
        rw [← ihk 0]
        apply List.map_congr_left
        intro pos hpos
        obtain ⟨j, r, rfl, -⟩ := (mem_discardedFrom P _ 0 pos).1 hpos
        simp [forestAt, Node.getAt]
    · rw [← ihs (k + 1)]
      apply List.map_congr_left
      intro pos hpos
      obtain ⟨j, r, rfl, -⟩ := (mem_discardedFrom P _ (k + 1) pos).1 hpos
      have : k + 1 + j - k = (k + 1 + j - (k + 1)) + 1 := by omega
      simp only [List.modifyHead_cons, this, forestAt_cons_succ]

theorem map_forestAt_discardedPositions (P : Node → Bool) (tree : List Node) :
    (discardedPositions P tree).map (forestAt tree) = (topDiscarded P tree).map some := by
  have h := map_forestAt_discardedFrom P tree 0
  rw [discardedPositions, ← h]
  apply List.map_congr_left
  intro pos _
  cases pos <;> simp

theorem subtreeHas_of_mem_topDiscarded (P : Node → Bool) (l : List Node) :
    ∀ n, n ∈ topDiscarded P l → n.subtreeHas P = false := by
  induction l using forest_induction with
  | hnil => intro n hn; simp [topDiscarded] at hn
  | hcons a as ihk ihs =>
    intro n hn
    rw [topDiscarded, topDiscardedBelow_eq, List.mem_append] at hn
    rcases hn with hn | hn
    · cases ha : a.subtreeHas P with
      | false =>
        simp only [ha, Bool.false_eq_true, if_false, List.mem_singleton] at hn
        rw [hn]; exact ha
      | true =>
        simp only [ha, if_true] at hn
        exact ihk n hn
    · exact ihs n hn

theorem discardedPositions_antichain (P : Node → Bool) (tree : List Node) (p q : List Nat)
    (hp : p ∈ discardedPositions P tree) (hq : q ∈ discardedPositions P tree)
    (hpq : p <+: q) : p = q := by
  rw [mem_discardedPositions] at hp hq
  obtain ⟨s, rfl⟩ := hpq
  cases s with
  | nil => simp
  | cons x y =>
    exfalso
    have hne : p ≠ [] := by
      rintro rfl
      exact not_isTopDiscarded_nil P tree hp
    obtain ⟨m, hm, hm2⟩ := hq.2 p (x :: y) hne (by simp) rfl
    obtain ⟨m', hm', hm3⟩ := hp.1
    rw [hm] at hm'
    cases hm'
    rw [hm2] at hm3
    cases hm3

/-- C3: with `onDelete` supplied, the calls of `onDelete` made by `treeShake` are, up to their
order, exactly the records at the top-most discarded positions of the input tree, one call per
position: a position is reported if and only if no record of the subtree there satisfies `P`
while the subtree at every proper ancestor position contains a record satisfying `P`.
Consequently no reported record has `P` anywhere in its subtree, and no reported position lies
below another reported position. -/
theorem treeShake_onDelete (P : Node → Bool) (tree : List Node) (fuel : Nat)
    (hfuel : sizeList tree + 1 ≤ fuel) :
    ∃ out log, treeShake fuel ⟨tree, some P, true⟩ = some (.ok (out, log)) ∧
      (log.map some).Perm ((discardedPositions P tree).map (forestAt tree)) ∧
      (discardedPositions P tree).Nodup ∧
      (∀ pos, pos ∈ discardedPositions P tree ↔ IsTopDiscarded P tree pos) ∧
      (∀ n, n ∈ log → n.subtreeHas P = false) ∧
      (∀ p q, p ∈ discardedPositions P tree → q ∈ discardedPositions P tree →
        p <+: q → p = q) := by
  obtain ⟨L, hL, hperm⟩ := treeShake_result P true tree fuel hfuel
  rw [if_pos rfl] at hperm
  refine ⟨prune P tree, L, hL, ?_, nodup_discardedPositions P tree,
    mem_discardedPositions P tree, ?_, discardedPositions_antichain P tree⟩
  · rw [map_forestAt_discardedPositions]
    exact hperm.map some
  · intro n hn
    exact subtreeHas_of_mem_topDiscarded P tree n (hperm.subset hn)

/-- Witness for C3 on the scenario tree. -/
theorem treeShake_onDelete_witness :
    sizeList scenarioTree + 1 ≤ 5 ∧
    ∃ out log, treeShake 5 ⟨scenarioTree, some idIsFour, true⟩ = some (.ok (out, log)) ∧
      (log.map some).Perm
        ((discardedPositions idIsFour scenarioTree).map (forestAt scenarioTree)) ∧
      (discardedPositions idIsFour scenarioTree).Nodup ∧
      (∀ pos, pos ∈ discardedPositions idIsFour scenarioTree ↔
        IsTopDiscarded idIsFour scenarioTree pos) ∧
      (∀ n, n ∈ log → n.subtreeHas idIsFour = false) ∧
      (∀ p q, p ∈ discardedPositions idIsFour scenarioTree →
        q ∈ discardedPositions idIsFour scenarioTree → p <+: q → p = q) :=
  ⟨by decide, treeShake_onDelete idIsFour scenarioTree 5 (by decide)⟩

/-! ## flatToTree after treeToFlat -/

theorem idsOf_cons (n : Node) (ns : List Node) :
    idsOf (n :: ns) = n.id :: (idsOf n.kids ++ idsOf ns) := by
  simp [idsOf, treeToFlat_cons]

theorem decorateFlatChildren_eq (n : Node) :
    decorateFlatChildren n = decorateFlat n.id n.kids := by
  cases n with
  | mk i p d c => cases c <;> simp [decorateFlatChildren, decorateFlat]

theorem decorateFlat_cons (pid : Val) (n : Node) (ns : List Node) :
    decorateFlat pid (n :: ns) =
      (.mk n.id pid n.data none) :: (decorateFlat n.id n.kids ++ decorateFlat pid ns) := by
  rw [decorateFlat, decorateFlatChildren_eq]

theorem relink_eq_map (pid : Val) (l : List Node) : relink pid l = l.map (relinkNode pid) := by
  induction l with
  | nil => simp [relink]
  | cons n ns ih => simp [relink, ih]

theorem relinkNode_eq (pid : Val) (n : Node) :
    relinkNode pid n =
      if n.kids.length ≠ 0 then .mk n.id pid n.data (some (relink n.id n.kids))
      else .mk n.id pid n.data none := by
  cases n with
  | mk i p d c =>
    cases c with
    | none => simp [relinkNode]
    | some kids =>
      cases kids with
      | nil => simp [relinkNode, relink]
      | cons k ks => simp [relinkNode, relink]

/-- Records of a decorated flat list whose parent differs from `pid` and is the id of no
record of the forest do not occur. -/
theorem filter_decorateFlat_absent (x : Val) (l : List Node) :
    ∀ pid, pid ≠ x → x ∉ idsOf l →
      (decorateFlat pid l).filter (fun r => r.parentId = x) = [] := by
  induction l using forest_induction with
  | hnil => intro pid _ _; simp [decorateFlat]
  | hcons a as ihk ihs =>
    intro pid hpid hx
    rw [idsOf_cons] at hx
    simp only [List.mem_cons, List.mem_append, not_or] at hx
    rw [decorateFlat_cons, List.filter_cons, List.filter_append,
      ihk a.id (fun h => hx.1 h.symm) hx.2.1, ihs pid hpid hx.2.2]
    simp [hpid]

theorem filter_decorateFlat_self (x : Val) (l : List Node) (hx : x ∉ idsOf l) :
    (decorateFlat x l).filter (fun r => r.parentId = x) = recordsOf x l := by
  induction l with
  | nil => simp [decorateFlat, recordsOf]
  | cons a as ih =>
    rw [idsOf_cons] at hx
    simp only [List.mem_cons, List.mem_append, not_or] at hx
    rw [decorateFlat_cons, List.filter_cons, List.filter_append,
      filter_decorateFlat_absent x a.kids a.id (fun h => hx.1 h.symm) hx.2.1, ih hx.2.2]
    simp [recordsOf]

theorem mem_idsOf {n : Node} {l : List Node} (h : n ∈ treeToFlat l) : n.id ∈ idsOf l :=
  List.mem_map.2 ⟨n, h, rfl⟩

theorem filter_decorateFlat_mem (l : List Node) :
    ∀ (pid : Val) (n : Node), (idsOf l).Nodup → n ∈ treeToFlat l → pid ≠ n.id →
      (decorateFlat pid l).filter (fun r => r.parentId = n.id) = recordsOf n.id n.kids := by
  induction l using forest_induction with
  | hnil => intro pid n _ hn; simp at hn
  | hcons a as ihk ihs =>
    intro pid n hnd hn hpid
    rw [idsOf_cons, List.nodup_cons, List.nodup_append] at hnd
    obtain ⟨ha, hndk, hnds, hdisj⟩ := hnd
    simp only [List.mem_append, not_or] at ha
    rw [treeToFlat_cons] at hn
    simp only [List.mem_cons, List.mem_append] at hn
    rw [decorateFlat_cons, List.filter_cons, List.filter_append]
    have hhead : ¬ (Node.mk a.id pid a.data none).parentId = n.id := by simpa using hpid
    simp only [hhead, decide_False, Bool.false_eq_true, if_false]
    rcases hn with hn | hn | hn
    · subst hn
      rw [filter_decorateFlat_self n.id n.kids ha.1,
        filter_decorateFlat_absent n.id as pid hpid ha.2]
      simp
    · have hne : a.id ≠ n.id := fun h => ha.1 (h ▸ mem_idsOf hn)
      have hns : n.id ∉ idsOf as := fun h => hdisj (mem_idsOf hn) h
      rw [ihk a.id n hndk hn hne, filter_decorateFlat_absent n.id as pid hpid hns]
      simp
    · have hne : a.id ≠ n.id := fun h => ha.2 (h ▸ mem_idsOf hn)
      have hnk : n.id ∉ idsOf a.kids := fun h => hdisj h (mem_idsOf hn)
      rw [filter_decorateFlat_absent n.id a.kids a.id hne hnk, ihs pid n hnds hn hpid]
      simp

theorem goodRest_filter (tree rest : List Node) (q : Val → Bool)
    (hq : ∀ n, n ∈ treeToFlat tree → q n.id = true) (h : GoodRest tree rest) :
    GoodRest tree (rest.filter (fun r => q r.parentId)) := by
  intro n hn
  rw [← h n hn, List.filter_filter]
  apply List.filter_congr
  intro r _
  by_cases hr : r.parentId = n.id
  · simp [hr, hq n hn]
  · simp [hr]

theorem goodRest_kids (n : Node) (ns rest : List Node) (h : GoodRest (n :: ns) rest) :
    GoodRest n.kids rest := by
  intro m hm
  exact h m (by rw [treeToFlat_cons]; simp [hm])

theorem goodRest_tail (n : Node) (ns rest : List Node) (h : GoodRest (n :: ns) rest) :
    GoodRest ns rest := by
  intro m hm
  exact h m (by rw [treeToFlat_cons]; simp [hm])

theorem recordsOf_cons (pid : Val) (n : Node) (ns : List Node) :
    recordsOf pid (n :: ns) = (.mk n.id pid n.data none) :: recordsOf pid ns := rfl

theorem length_recordsOf (pid : Val) (l : List Node) : (recordsOf pid l).length = l.length := by
  simp [recordsOf]

theorem decide_notMem_cons_append (x a : Val) (l1 l2 : List Val) :
    decide (x ∉ a :: (l1 ++ l2)) = (decide (x ∉ l2) && (decide (x ∉ l1) && decide (x ≠ a))) := by
  by_cases h1 : x = a <;> by_cases h2 : x ∈ l1 <;> by_cases h3 : x ∈ l2 <;> simp [h1, h2, h3]

theorem toTreeForEach_spec
    (recur : List Node → List Node → Option (List Node × List Node)) (M : Nat)
    (hrec : ∀ (tree rest : List Node) (pid : Val), sizeList tree < M → GoodRest tree rest →
      (idsOf tree).Nodup →
      recur (recordsOf pid tree) rest =
        some (relink pid tree, rest.filter (fun r => decide (r.parentId ∉ idsOf tree)))) :
    ∀ (tree rest : List Node) (pid : Val), sizeList tree ≤ M → GoodRest tree rest →
      (idsOf tree).Nodup →
      toTreeForEach recur (recordsOf pid tree) rest =
        some (relink pid tree, rest.filter (fun r => decide (r.parentId ∉ idsOf tree))) := by
  intro tree
  induction tree with
  | nil =>
    intro rest pid _ _ _
    simp [recordsOf, toTreeForEach, relink, idsOf]
  | cons n ns ih =>
    intro rest pid hsz hgood hnd
    have hnd0 := hnd
    rw [idsOf_cons, List.nodup_cons, List.nodup_append] at hnd
    obtain ⟨ha, hndk, hnds, hdisj⟩ := hnd
    simp only [List.mem_append, not_or] at ha
    have hchildren : rest.filter (fun r => decide (r.parentId = n.id)) = recordsOf n.id n.kids :=
      hgood n (by rw [treeToFlat_cons]; simp)
    have hsize : n.size + sizeList ns ≤ M := by simpa [sizeList] using hsz
    have hnsz := sizeList_kids n
    rw [recordsOf_cons, toTreeForEach]
    simp only [Node.id_mk]
    rw [hchildren, length_recordsOf]
    have hgood1 : ∀ t, (∀ m, m ∈ treeToFlat t → m ∈ treeToFlat (n :: ns)) →
        (∀ m, m ∈ treeToFlat t → m.id ≠ n.id) →
        GoodRest t (rest.filter (fun r => decide (r.parentId ≠ n.id))) := by
      intro t hsub hne
      have := goodRest_filter t rest (fun v => decide (v ≠ n.id))
        (fun m hm => by simpa using hne m hm) (fun m hm => hgood m (hsub m hm))
      exact this
    have hgk : GoodRest n.kids (rest.filter (fun r => decide (r.parentId ≠ n.id))) :=
      hgood1 n.kids (fun m hm => by rw [treeToFlat_cons]; simp [hm])
        (fun m hm h => ha.1 (h ▸ mem_idsOf hm))
    have hgs : GoodRest ns (rest.filter (fun r => decide (r.parentId ≠ n.id))) :=
      hgood1 ns (fun m hm => by rw [treeToFlat_cons]; simp [hm])
        (fun m hm h => ha.2 (h ▸ mem_idsOf hm))
    by_cases hk : n.kids.length = 0
    · have hk2 : n.kids = [] := List.length_eq_zero.1 hk
      simp only [hk, ne_eq, not_true_eq_false, if_false]
      rw [ih _ pid (by omega) hgs hnds]
      simp only [relink, relinkNode_eq, hk, ne_eq, not_true_eq_false, if_false, List.filter_filter]
      congr 2
      apply List.filter_congr
      intro r _
      have hnil : idsOf n.kids = [] := by rw [hk2]; simp [idsOf]
      rw [idsOf_cons, decide_notMem_cons_append, hnil]
      simp
    · simp only [hk, ne_eq, not_false_eq_true, if_true]
      rw [hrec n.kids _ n.id (by omega) hgk hndk]
      simp only
      have hgs2 : GoodRest ns ((rest.filter (fun r => decide (r.parentId ≠ n.id))).filter
          (fun r => decide (r.parentId ∉ idsOf n.kids))) :=
        goodRest_filter ns _ (fun v => decide (v ∉ idsOf n.kids))
          (fun m hm => by simpa using fun h => hdisj h (mem_idsOf hm)) hgs
      rw [ih _ pid (by omega) hgs2 hnds]
      simp only [relink, relinkNode_eq, hk, ne_eq, not_false_eq_true, if_true,
        List.filter_filter, Node.setChildren]
      congr 2
      apply List.filter_congr
      intro r _
      rw [idsOf_cons, decide_notMem_cons_append]

theorem toTree_spec :
    ∀ (fuel : Nat) (tree rest : List Node) (pid : Val), sizeList tree < fuel →
      GoodRest tree rest → (idsOf tree).Nodup →
      toTree fuel (recordsOf pid tree) rest =
        some (relink pid tree, rest.filter (fun r => decide (r.parentId ∉ idsOf tree))) := by
  intro fuel
  induction fuel with
  | zero => intro tree rest pid h; omega
  | succ fuel ih =>
    intro tree rest pid h hgood hnd
    rw [toTree]
    exact toTreeForEach_spec (toTree fuel) fuel ih tree rest pid (by omega) hgood hnd

theorem filter_roots_decorateFlat (l : List Node) :
    ∀ pid, (∀ n, n ∈ treeToFlat l → n.kids ≠ [] → n.id.truthy = true) →
      (decorateFlat pid l).filter (fun i => !i.parentId.truthy) =
        if pid.truthy then [] else recordsOf pid l := by
  induction l using forest_induction with
  | hnil => intro pid _; simp [decorateFlat, recordsOf]
  | hcons a as ihk ihs =>
    intro pid h
    have hk := ihk a.id (fun n hn => h n (by rw [treeToFlat_cons]; simp [hn]))
    have hs := ihs pid (fun n hn => h n (by rw [treeToFlat_cons]; simp [hn]))
    have hkids : (decorateFlat a.id a.kids).filter (fun i => !i.parentId.truthy) = [] := by
      rw [hk]
      by_cases hak : a.kids = []
      · simp [hak, recordsOf]
      · simp [h a (by rw [treeToFlat_cons]; simp) hak]
    rw [decorateFlat_cons, List.filter_cons, List.filter_append, hkids, hs]
    cases hp : pid.truthy <;> simp [hp, recordsOf]

theorem goodRest_decorateFlat (tree : List Node) (hnd : (idsOf tree).Nodup)
    (htruthy : ∀ n, n ∈ treeToFlat tree → n.kids ≠ [] → n.id.truthy = true) :
    GoodRest tree ((decorateFlat .undefined tree).filter (fun i => i.parentId.truthy)) := by
  intro n hn
  rw [List.filter_filter]
  by_cases ht : n.id.truthy = true
  · have hne : Val.undefined ≠ n.id := by
      intro h
      rw [← h] at ht
      simp [Val.truthy] at ht
    rw [← filter_decorateFlat_mem tree .undefined n hnd hn hne]
    apply List.filter_congr
    intro r _
    by_cases hr : r.parentId = n.id
    · simp [hr, ht]
    · simp [hr]
  · have hk : n.kids = [] := by
      by_contra hk
      exact ht (htruthy n hn hk)
    rw [hk]
    simp only [recordsOf, List.map_nil, List.filter_eq_nil_iff]
    intro r _
    by_cases hr : r.parentId = n.id
    · simp [hr, ht]
    · simp [hr]

theorem length_decorateFlat (l : List Node) : ∀ pid, (decorateFlat pid l).length = sizeList l := by
  induction l using forest_induction with
  | hnil => intro pid; simp [decorateFlat, sizeList]
  | hcons a as ihk ihs =>
    intro pid
    simp [decorateFlat_cons, sizeList, sizeList_kids, ihk, ihs]
    omega

theorem decorateFlat_fields (l : List Node) :
    ∀ pid, (decorateFlat pid l).map (fun r => (r.id, r.data)) =
      (treeToFlat l).map (fun n => (n.id, n.data)) := by
  induction l using forest_induction with
  | hnil => intro pid; simp [decorateFlat]
  | hcons a as ihk ihs =>
    intro pid
    simp [decorateFlat_cons, treeToFlat_cons, ihk, ihs]

theorem decorateFlat_children (l : List Node) :
    ∀ pid r, r ∈ decorateFlat pid l → r.children = none := by
  induction l using forest_induction with
  | hnil => intro pid r hr; simp [decorateFlat] at hr
  | hcons a as ihk ihs =>
    intro pid r hr
    rw [decorateFlat_cons] at hr
    simp only [List.mem_cons, List.mem_append] at hr
    rcases hr with hr | hr | hr
    · rw [hr]; rfl
    · exact ihk _ r hr
    · exact ihs _ r hr

theorem length_relink (pid : Val) (l : List Node) : (relink pid l).length = l.length := by
  simp [relink_eq_map]

theorem sameShape_relinkNode (pid : Val) (n : Node)
    (h : sameShapeList (relink n.id n.kids) n.kids = true) :
    Node.sameShape (relinkNode pid n) n = true := by
  cases n with
  | mk i p d c =>
    cases c with
    | none => simp [relinkNode, Node.sameShape, sameShapeKids]
    | some kids =>
      simp only [Node.id_mk, Node.kids_mk_some] at h
      simp only [relinkNode]
      cases hr : relink i kids with
      | nil =>
        have hl := length_relink i kids
        rw [hr] at hl
        have hk : kids = [] := List.length_eq_zero.1 hl.symm
        simp [Node.sameShape, sameShapeKids, hk]
      | cons k ks =>
        rw [hr] at h
        simp [Node.sameShape, sameShapeKids, h]

theorem sameShapeList_relink (l : List Node) :
    ∀ pid, sameShapeList (relink pid l) l = true := by
  induction l using forest_induction with
  | hnil => intro pid; simp [relink, sameShapeList]
  | hcons a as ihk ihs =>
    intro pid
    simp [relink, sameShapeList, sameShape_relinkNode pid a (ihk a.id), ihs pid]

theorem linked_relinkNode (pid : Val) (n : Node)
    (h : linkedUnder n.id (relink n.id n.kids) = true) :
    (relinkNode pid n).linked = true ∧ (relinkNode pid n).parentId = pid := by
  cases n with
  | mk i p d c =>
    cases c with
    | none => simp [relinkNode, Node.linked]
    | some kids =>
      simp only [Node.id_mk, Node.kids_mk_some] at h
      simp only [relinkNode]
      cases hr : relink i kids with
      | nil => simp [Node.linked]
      | cons k ks =>
        rw [hr] at h
        simp [Node.linked, h]

theorem linkedUnder_relink (l : List Node) :
    ∀ pid, linkedUnder pid (relink pid l) = true := by
  induction l using forest_induction with
  | hnil => intro pid; simp [relink, linkedUnder]
  | hcons a as ihk ihs =>
    intro pid
    have h := linked_relinkNode pid a (ihk a.id)
    simp [relink, linkedUnder, h.1, h.2, ihs pid]

theorem flatToTree_decorateFlat (tree : List Node) (hnd : (idsOf tree).Nodup)
    (htruthy : ∀ n, n ∈ treeToFlat tree → n.kids ≠ [] → n.id.truthy = true) :
    flatToTree (decorateFlat .undefined tree) = some (relink .undefined tree) := by
  have hroots : (decorateFlat .undefined tree).filter (fun i => !i.parentId.truthy) =
      recordsOf .undefined tree := by
    rw [filter_roots_decorateFlat tree .undefined htruthy]
    rfl
  rw [flatToTree, flatToTreeFuel]
  simp only [hroots]
  rw [toTree_spec _ tree _ .undefined (by rw [length_decorateFlat]; omega)
    (goodRest_decorateFlat tree hnd htruthy) hnd]
  rfl

/-- C5 as stated fails: for the tree `[{id:0,children:[{id:1}]}]`, whose ids are distinct, the
decorated flat list is `[{id:0},{id:1,parentId:0}]`; `flatToTree` takes the falsy `parentId`
0 for "no parent" and returns two roots, which is not the shape of the tree. -/
theorem falsyId_breaks_roundtrip :
    (idsOf falsyIdTree).Nodup ∧
    decorateFlat .undefined falsyIdTree =
      [.mk (.num 0) .undefined .undefined none, .mk (.num 1) (.num 0) .undefined none] ∧
    flatToTree (decorateFlat .undefined falsyIdTree) =
      some [.mk (.num 0) .undefined .undefined none, .mk (.num 1) (.num 0) .undefined none] ∧
    sameShapeList
      [.mk (.num 0) .undefined .undefined none, .mk (.num 1) (.num 0) .undefined none]
      falsyIdTree = false := by
  decide

/-- C5 (amended): for a tree with pairwise distinct ids in which every record that has a child
carries a truthy id, the flat list of the tree (children removed, `parentId` set to the parent's
id, absent for roots) is rebuilt by `flatToTree` into a forest of the same shape: the same
records with the same children in the same order, every child carrying the id of the record it
hangs under. -/
theorem flatToTree_roundtrip (tree : List Node) (hnd : (idsOf tree).Nodup)
    (htruthy : ∀ n, n ∈ treeToFlat tree → n.kids ≠ [] → n.id.truthy = true) :
    (decorateFlat .undefined tree).map (fun r => (r.id, r.data)) =
      (treeToFlat tree).map (fun n => (n.id, n.data)) ∧
    (∀ r, r ∈ decorateFlat .undefined tree → r.children = none) ∧
    ∃ R, flatToTree (decorateFlat .undefined tree) = some R ∧
      sameShapeList R tree = true ∧ linkedUnder .undefined R = true :=
  ⟨decorateFlat_fields tree .undefined, decorateFlat_children tree .undefined,
    relink .undefined tree, flatToTree_decorateFlat tree hnd htruthy,
    sameShapeList_relink tree .undefined, linkedUnder_relink tree .undefined⟩

/-- Witness for C5 on the scenario tree. -/
theorem flatToTree_roundtrip_witness :
    (idsOf scenarioTree).Nodup ∧
    (∀ n, n ∈ treeToFlat scenarioTree → n.kids ≠ [] → n.id.truthy = true) ∧
    (decorateFlat .undefined scenarioTree).map (fun r => (r.id, r.data)) =
      (treeToFlat scenarioTree).map (fun n => (n.id, n.data)) ∧
    (∀ r, r ∈ decorateFlat .undefined scenarioTree → r.children = none) ∧
    ∃ R, flatToTree (decorateFlat .undefined scenarioTree) = some R ∧
      sameShapeList R scenarioTree = true ∧ linkedUnder .undefined R = true :=
  ⟨by decide, by decide, flatToTree_roundtrip scenarioTree (by decide) (by decide)⟩

/-! ## The general behaviour of flatToTree -/

theorem length_filter_partition (rest : List Node) (x : Val) :
    (rest.filter fun r => r.parentId = x).length + (rest.filter fun r => r.parentId ≠ x).length
      = rest.length := by
  induction rest with
  | nil => simp
  | cons r rs ih =>
    by_cases h : r.parentId = x
    · have h1 : decide (r.parentId = x) = true := by simpa using h
      have h2 : decide (r.parentId ≠ x) = false := by simpa using h
      simp only [List.filter_cons, h1, h2, if_true, Bool.false_eq_true, if_false,
        List.length_cons] at ih ⊢
      omega
    · have h1 : decide (r.parentId = x) = false := by simpa using h
      have h2 : decide (r.parentId ≠ x) = true := by simpa using h
      simp only [List.filter_cons, h1, h2, if_true, Bool.false_eq_true, if_false,
        List.length_cons] at ih ⊢
      omega

theorem Built.rest_sublist {tree rest out rest' : List Node} (h : Built tree rest out rest') :
    rest'.Sublist rest := by
  induction h with
  | nil rest => exact List.Sublist.refl _
  | skip i is rest out rest' _ _ ih => exact ih.trans (List.filter_sublist _)
  | attach i is rest cs rest2 out rest3 _ _ _ ih1 ih2 =>
    exact (ih2.trans ih1).trans (List.filter_sublist _)

theorem toTreeForEach_built
    (recur : List Node → List Node → Option (List Node × List Node)) (M : Nat)
    (hrec : ∀ tree rest : List Node, rest.length < M →
      ∃ out rest', recur tree rest = some (out, rest') ∧ Built tree rest out rest') :
    ∀ tree rest : List Node, rest.length ≤ M →
      ∃ out rest', toTreeForEach recur tree rest = some (out, rest') ∧
        Built tree rest out rest' := by
  intro tree
  induction tree with
  | nil => intro rest _; exact ⟨[], rest, by simp [toTreeForEach], Built.nil rest⟩
  | cons i is ih =>
    intro rest hlen
    have hpart := length_filter_partition rest i.id
    have hle1 : (rest.filter fun r => r.parentId ≠ i.id).length ≤ rest.length :=
      List.length_filter_le _ _
    by_cases hk : (rest.filter fun r => r.parentId = i.id).length = 0
    · obtain ⟨out, rest', h1, h2⟩ := ih (rest.filter fun r => r.parentId ≠ i.id) (by omega)
      refine ⟨i :: out, rest', ?_, Built.skip i is rest out rest' hk h2⟩
      rw [toTreeForEach]
      simp only [hk, ne_eq, not_true_eq_false, if_false, h1]
    · obtain ⟨cs, rest2, h1, h2⟩ := hrec (rest.filter fun r => r.parentId = i.id)
        (rest.filter fun r => r.parentId ≠ i.id) (by omega)
      have hle2 := h2.rest_sublist.length_le
      obtain ⟨out, rest3, h3, h4⟩ := ih rest2 (by omega)
      refine ⟨i.setChildren cs :: out, rest3, ?_, Built.attach i is rest cs rest2 out rest3 hk h2 h4⟩
      rw [toTreeForEach]
      simp only [hk, ne_eq, not_false_eq_true, if_true, h1, h3]

theorem toTree_built :
    ∀ (fuel : Nat) (tree rest : List Node), rest.length < fuel →
      ∃ out rest', toTree fuel tree rest = some (out, rest') ∧ Built tree rest out rest' := by
  intro fuel
  induction fuel with
  | zero => intro tree rest h; omega
  | succ fuel ih =>
    intro tree rest h
    rw [toTree]
    exact toTreeForEach_built (toTree fuel) fuel ih tree rest (by omega)

theorem flatToTreeFuel_built (fuel : Nat) (flat : List Node)
    (h : (flat.filter fun i => i.parentId.truthy).length < fuel) :
    ∃ R rest', flatToTreeFuel fuel flat = some R ∧
      Built (flat.filter fun i => !i.parentId.truthy) (flat.filter fun i => i.parentId.truthy)
        R rest' := by
  obtain ⟨out, rest', h1, h2⟩ := toTree_built fuel (flat.filter fun i => !i.parentId.truthy)
    (flat.filter fun i => i.parentId.truthy) h
  exact ⟨out, rest', by simp [flatToTreeFuel, h1], h2⟩

theorem flatToTree_built (flat : List Node) :
    ∃ R rest', flatToTree flat = some R ∧
      Built (flat.filter fun i => !i.parentId.truthy) (flat.filter fun i => i.parentId.truthy)
        R rest' :=
  flatToTreeFuel_built (flat.length + 1) flat
    (Nat.lt_succ_of_le (List.length_filter_le _ _))

theorem IsFlatList.of_sublist {l1 l2 : List Node} (h : IsFlatList l2) (hs : l1.Sublist l2) :
    IsFlatList l1 :=
  fun r hr => h r (hs.subset hr)

theorem IsFlatList.filter {l : List Node} (h : IsFlatList l) (p : Node → Bool) :
    IsFlatList (l.filter p) :=
  h.of_sublist (List.filter_sublist _)

theorem IsFlatList.tail {i : Node} {is : List Node} (h : IsFlatList (i :: is)) : IsFlatList is :=
  fun r hr => h r (List.mem_cons_of_mem _ hr)

@[simp] theorem Node.kids_setChildren (n : Node) (cs : List Node) : (n.setChildren cs).kids = cs := by
  cases n; rfl

@[simp] theorem Node.fields_setChildren (n : Node) (cs : List Node) :
    (n.setChildren cs).fields = n.fields := by
  cases n; rfl

@[simp] theorem Node.id_setChildren (n : Node) (cs : List Node) : (n.setChildren cs).id = n.id := by
  cases n; rfl

theorem treeToFlat_cons_flat (i : Node) (out : List Node) (h : i.kids = []) :
    treeToFlat (i :: out) = i :: treeToFlat out := by
  rw [treeToFlat_cons, h]; simp

theorem treeToFlat_cons_setChildren (i : Node) (cs out : List Node) :
    treeToFlat (i.setChildren cs :: out) =
      i.setChildren cs :: (treeToFlat cs ++ treeToFlat out) := by
  rw [treeToFlat_cons, Node.kids_setChildren]

theorem Built.fields_eq {tree rest out rest' : List Node} (h : Built tree rest out rest') :
    out.map Node.fields = tree.map Node.fields := by
  induction h with
  | nil rest => rfl
  | skip i is rest out rest' _ _ ih => simp [ih]
  | attach i is rest cs rest2 out rest3 _ _ _ _ ih2 => simp [ih2]

theorem filter_ne_eq_filter_not (rest : List Node) (x : Val) :
    (rest.filter fun r => decide (r.parentId ≠ x)) =
      rest.filter fun r => !decide (r.parentId = x) := by
  apply List.filter_congr
  intro r _
  simp

theorem filter_partition_perm (rest : List Node) (x : Val) :
    ((rest.filter fun r => decide (r.parentId = x)) ++
      (rest.filter fun r => decide (r.parentId ≠ x))).Perm rest := by
  rw [filter_ne_eq_filter_not]
  exact List.filter_append_perm _ rest

theorem Built.perm {tree rest out rest' : List Node} (h : Built tree rest out rest') :
    IsFlatList tree → IsFlatList rest →
      ((treeToFlat out).map Node.fields ++ rest'.map Node.fields).Perm
        (tree.map Node.fields ++ rest.map Node.fields) := by
  induction h with
  | nil rest => intro _ _; simp
  | skip i is rest out rest' hk _ ih =>
    intro ht hr
    have hpart := filter_partition_perm rest i.id
    rw [List.length_eq_zero.1 hk, List.nil_append] at hpart
    rw [treeToFlat_cons_flat i out (ht i (by simp))]
    simp only [List.map_cons, List.cons_append]
    refine List.Perm.cons _ ((ih ht.tail (hr.filter _)).trans ?_)
    exact List.Perm.append_left _ (hpart.map _)
  | attach i is rest cs rest2 out rest3 _ h1 _ ih1 ih2 =>
    intro ht hr
    have hpart := (filter_partition_perm rest i.id).map Node.fields
    rw [List.map_append] at hpart
    have hr1 : IsFlatList (rest.filter fun r => decide (r.parentId ≠ i.id)) := hr.filter _
    have p1 := ih1 (hr.filter _) hr1
    have p2 := ih2 ht.tail (hr1.of_sublist h1.rest_sublist)
    rw [treeToFlat_cons_setChildren]
    simp only [List.map_cons, List.map_append, List.cons_append, Node.fields_setChildren,
      List.append_assoc]
    refine List.Perm.cons _ ?_
    refine (List.Perm.append_left _ p2).trans ?_
    refine (List.perm_append_comm_assoc _ _ _).trans ?_
    apply List.Perm.append_left
    exact p1.trans hpart

theorem parentId_of_fields_eq {a b : Node} (h : a.fields = b.fields) : a.parentId = b.parentId := by
  have := congrArg (fun t => t.2.1) h
  simpa [Node.fields] using this

theorem id_of_fields_eq {a b : Node} (h : a.fields = b.fields) : a.id = b.id := by
  have := congrArg (fun t => t.1) h
  simpa [Node.fields] using this

theorem Built.children {tree rest out rest' : List Node} (h : Built tree rest out rest') :
    IsFlatList tree → IsFlatList rest →
      ∀ n, n ∈ treeToFlat out →
        (∀ c, c ∈ n.kids → c.parentId = n.id) ∧
        (n.kids.map Node.fields).Sublist (rest.map Node.fields) := by
  induction h with
  | nil rest => intro _ _ n hn; simp at hn
  | skip i is rest out rest' _ _ ih =>
    intro ht hr n hn
    rw [treeToFlat_cons_flat i out (ht i (by simp)), List.mem_cons] at hn
    rcases hn with hn | hn
    · subst hn
      simp [ht n (by simp)]
    · obtain ⟨h1, h2⟩ := ih ht.tail (hr.filter _) n hn
      exact ⟨h1, h2.trans ((List.filter_sublist _).map _)⟩
  | attach i is rest cs rest2 out rest3 _ h1 _ ih1 ih2 =>
    intro ht hr n hn
    have hr1 : IsFlatList (rest.filter fun r => decide (r.parentId ≠ i.id)) := hr.filter _
    rw [treeToFlat_cons_setChildren, List.mem_cons, List.mem_append] at hn
    rcases hn with hn | hn | hn
    · subst hn
      simp only [Node.kids_setChildren, Node.id_setChildren]
      constructor
      · intro c hc
        have hcf : c.fields ∈ cs.map Node.fields := List.mem_map.2 ⟨c, hc, rfl⟩
        rw [h1.fields_eq] at hcf
        obtain ⟨r, hr', hrf⟩ := List.mem_map.1 hcf
        rw [← parentId_of_fields_eq hrf]
        simpa using (List.mem_filter.1 hr').2
      · rw [h1.fields_eq]
        exact (List.filter_sublist _).map _
    · obtain ⟨g1, g2⟩ := ih1 (hr.filter _) hr1 n hn
      exact ⟨g1, g2.trans ((List.filter_sublist _).map _)⟩
    · obtain ⟨g1, g2⟩ := ih2 ht.tail (hr1.of_sublist h1.rest_sublist) n hn
      exact ⟨g1, g2.trans ((h1.rest_sublist.trans (List.filter_sublist _)).map _)⟩

theorem Built.rest_clean {tree rest out rest' : List Node} (h : Built tree rest out rest') :
    IsFlatList tree → IsFlatList rest →
      ∀ n, n ∈ treeToFlat out → ∀ r, r ∈ rest' → r.parentId ≠ n.id := by
  induction h with
  | nil rest => intro _ _ n hn; simp at hn
  | skip i is rest out rest' _ h2 ih =>
    intro ht hr n hn r hr'
    rw [treeToFlat_cons_flat i out (ht i (by simp)), List.mem_cons] at hn
    rcases hn with hn | hn
    · subst hn
      simpa using (List.mem_filter.1 (h2.rest_sublist.subset hr')).2
    · exact ih ht.tail (hr.filter _) n hn r hr'
  | attach i is rest cs rest2 out rest3 _ h1 h2 ih1 ih2 =>
    intro ht hr n hn r hr'
    have hr1 : IsFlatList (rest.filter fun r => decide (r.parentId ≠ i.id)) := hr.filter _
    rw [treeToFlat_cons_setChildren, List.mem_cons, List.mem_append] at hn
    rcases hn with hn | hn | hn
    · subst hn
      rw [Node.id_setChildren]
      simpa using (List.mem_filter.1 (h1.rest_sublist.subset (h2.rest_sublist.subset hr'))).2
    · exact ih1 (hr.filter _) hr1 n hn r (h2.rest_sublist.subset hr')
    · exact ih2 ht.tail (hr1.of_sublist h1.rest_sublist) n hn r hr'

theorem Built.no_children_of {tree rest out rest' : List Node} (h : Built tree rest out rest') :
    IsFlatList tree → IsFlatList rest →
      ∀ x, (∀ r, r ∈ rest → r.parentId ≠ x) →
        ∀ b, b ∈ treeToFlat out → b.id = x → b.kids = [] := by
  induction h with
  | nil rest => intro _ _ x _ b hb; simp at hb
  | skip i is rest out rest' _ _ ih =>
    intro ht hr x hx b hb hbx
    rw [treeToFlat_cons_flat i out (ht i (by simp)), List.mem_cons] at hb
    rcases hb with hb | hb
    · subst hb
      exact ht b (by simp)
    · exact ih ht.tail (hr.filter _) x (fun r hr' => hx r (List.mem_of_mem_filter hr')) b hb hbx
  | attach i is rest cs rest2 out rest3 hk h1 _ ih1 ih2 =>
    intro ht hr x hx b hb hbx
    have hr1 : IsFlatList (rest.filter fun r => decide (r.parentId ≠ i.id)) := hr.filter _
    rw [treeToFlat_cons_setChildren, List.mem_cons, List.mem_append] at hb
    rcases hb with hb | hb | hb
    · subst hb
      rw [Node.id_setChildren] at hbx
      exfalso
      obtain ⟨r, hr'⟩ := List.exists_mem_of_length_pos (Nat.pos_of_ne_zero hk)
      have h3 := List.mem_filter.1 hr'
      exact hx r h3.1 (by rw [← hbx]; simpa using h3.2)
    · exact ih1 (hr.filter _) hr1 x (fun r hr' => hx r (List.mem_of_mem_filter hr')) b hb hbx
    · exact ih2 ht.tail (hr1.of_sublist h1.rest_sublist) x
        (fun r hr' => hx r (List.mem_of_mem_filter (h1.rest_sublist.subset hr'))) b hb hbx

theorem Built.first_only {tree rest out rest' : List Node} (h : Built tree rest out rest') :
    IsFlatList tree → IsFlatList rest →
      (treeToFlat out).Pairwise (fun a b => a.id = b.id → b.kids = []) := by
  induction h with
  | nil rest => intro _ _; simp
  | skip i is rest out rest' _ h2 ih =>
    intro ht hr
    rw [treeToFlat_cons_flat i out (ht i (by simp)), List.pairwise_cons]
    refine ⟨?_, ih ht.tail (hr.filter _)⟩
    intro b hb hib
    exact h2.no_children_of ht.tail (hr.filter _) i.id
      (fun r hr' => by simpa using (List.mem_filter.1 hr').2) b hb hib.symm
  | attach i is rest cs rest2 out rest3 _ h1 h2 ih1 ih2 =>
    intro ht hr
    have hr1 : IsFlatList (rest.filter fun r => decide (r.parentId ≠ i.id)) := hr.filter _
    have hr2 : IsFlatList rest2 := hr1.of_sublist h1.rest_sublist
    have hc : IsFlatList (rest.filter fun r => decide (r.parentId = i.id)) := hr.filter _
    rw [treeToFlat_cons_setChildren, List.pairwise_cons, List.pairwise_append]
    refine ⟨?_, ih1 hc hr1, ih2 ht.tail hr2, ?_⟩
    · intro b hb hib
      rw [Node.id_setChildren] at hib
      rcases List.mem_append.1 hb with hb | hb
      · exact h1.no_children_of hc hr1 i.id
          (fun r hr' => by simpa using (List.mem_filter.1 hr').2) b hb hib.symm
      · exact h2.no_children_of ht.tail hr2 i.id
          (fun r hr' => by simpa using (List.mem_filter.1 (h1.rest_sublist.subset hr')).2) b hb hib.symm
    · intro a ha b hb hab
      exact h2.no_children_of ht.tail hr2 a.id (h1.rest_clean hc hr1 a ha) b hb hab.symm

theorem mem_treeToFlat_cases (l : List Node) :
    ∀ n, n ∈ treeToFlat l → n ∈ l ∨ ∃ m, m ∈ treeToFlat l ∧ n ∈ m.kids := by
  induction l using forest_induction with
  | hnil => intro n hn; simp at hn
  | hcons a as ihk ihs =>
    intro n hn
    rw [treeToFlat_cons] at hn ⊢
    simp only [List.mem_cons, List.mem_append] at hn ⊢
    rcases hn with hn | hn | hn
    · exact Or.inl (Or.inl hn)
    · rcases ihk n hn with h | ⟨m, hm, hnm⟩
      · exact Or.inr ⟨a, Or.inl rfl, h⟩
      · exact Or.inr ⟨m, Or.inr (Or.inl hm), hnm⟩
    · rcases ihs n hn with h | ⟨m, hm, hnm⟩
      · exact Or.inl (Or.inr h)
      · exact Or.inr ⟨m, Or.inr (Or.inr hm), hnm⟩

theorem filter_truthy_perm (flat : List Node) :
    ((flat.filter fun i => !i.parentId.truthy) ++ (flat.filter fun i => i.parentId.truthy)).Perm
      flat := by
  have h := List.filter_append_perm (fun i : Node => !i.parentId.truthy) flat
  have he : (flat.filter fun i => !(!i.parentId.truthy)) = flat.filter fun i => i.parentId.truthy := by
    apply List.filter_congr
    intro r _
    simp
  rw [he] at h
  exact h

theorem built_perm_flat {flat R rest' : List Node} (hflat : IsFlatList flat)
    (h : Built (flat.filter fun i => !i.parentId.truthy) (flat.filter fun i => i.parentId.truthy)
      R rest') :
    ((treeToFlat R).map Node.fields ++ rest'.map Node.fields).Perm (flat.map Node.fields) := by
  refine (h.perm (hflat.filter _) (hflat.filter _)).trans ?_
  rw [← List.map_append]
  exact (filter_truthy_perm flat).map _

theorem built_fields_mem_flat {flat R rest' : List Node} (hflat : IsFlatList flat)
    (h : Built (flat.filter fun i => !i.parentId.truthy) (flat.filter fun i => i.parentId.truthy)
      R rest') :
    ∀ m, m ∈ treeToFlat R → ∃ s, s ∈ flat ∧ s.fields = m.fields := by
  intro m hm
  have h1 : m.fields ∈ (treeToFlat R).map Node.fields ++ rest'.map Node.fields :=
    List.mem_append_left _ (List.mem_map.2 ⟨m, hm, rfl⟩)
  have h2 := (built_perm_flat hflat h).subset h1
  obtain ⟨s, hs, hsf⟩ := List.mem_map.1 h2
  exact ⟨s, hs, hsf⟩

/-- C11: for every flat list, an orphan (a record whose truthy `parentId` is the id of no
record of the list) has no counterpart anywhere in the forest `flatToTree` returns, neither
among the roots nor among the descendants. On `[{id:1},{id:2,parentId:1},{id:3,parentId:99}]`
the result is the single root `{id:1,children:[{id:2,parentId:1}]}`. -/
theorem flatToTree_drops_orphans (flat : List Node) (hflat : IsFlatList flat) :
    (∃ R, flatToTree flat = some R ∧
      ∀ o, o ∈ flat → o.parentId.truthy = true → (∀ s, s ∈ flat → s.id ≠ o.parentId) →
        ∀ n, n ∈ treeToFlat R → n.fields ≠ o.fields) ∧
    flatToTree orphanScenario =
      some [.mk (.num 1) .undefined .undefined (some [child 2 1])] := by
  refine ⟨?_, by decide⟩
  obtain ⟨R, rest', hR, hB⟩ := flatToTree_built flat
  refine ⟨R, hR, ?_⟩
  intro o _ hot horph n hn hno
  have hpar : n.parentId = o.parentId := parentId_of_fields_eq hno
  rcases mem_treeToFlat_cases R n hn with hroot | ⟨m, hm, hnm⟩
  · have h1 : n.fields ∈ R.map Node.fields := List.mem_map.2 ⟨n, hroot, rfl⟩
    rw [hB.fields_eq] at h1
    obtain ⟨t, ht, htf⟩ := List.mem_map.1 h1
    have h2 := (List.mem_filter.1 ht).2
    rw [parentId_of_fields_eq htf, hpar, hot] at h2
    simp at h2
  · have h1 := (hB.children (hflat.filter _) (hflat.filter _) m hm).1 n hnm
    obtain ⟨s, hs, hsf⟩ := built_fields_mem_flat hflat hB m hm
    apply horph s hs
    rw [id_of_fields_eq hsf, ← h1, hpar]

/-- Witness for C11 on the scenario list. -/
theorem flatToTree_drops_orphans_witness :
    IsFlatList orphanScenario ∧
    ((∃ R, flatToTree orphanScenario = some R ∧
      ∀ o, o ∈ orphanScenario → o.parentId.truthy = true →
        (∀ s, s ∈ orphanScenario → s.id ≠ o.parentId) →
        ∀ n, n ∈ treeToFlat R → n.fields ≠ o.fields) ∧
    flatToTree orphanScenario =
      some [.mk (.num 1) .undefined .undefined (some [child 2 1])]) :=
  ⟨by intro r hr; revert r; decide, flatToTree_drops_orphans orphanScenario (by
    intro r hr; revert r; decide)⟩

theorem isFlatList_orphanScenario : IsFlatList orphanScenario := by
  intro r hr; revert r; decide

theorem isFlatList_falsyParentList : IsFlatList falsyParentList := by
  intro r hr; revert r; decide

theorem isFlatList_duplicateIdList : IsFlatList duplicateIdList := by
  intro r hr; revert r; decide

/-- C12: for every flat list, in the forest `flatToTree` returns every child carries as
`parentId` exactly the id of the record it is attached under, and the children of each record
are, in the order in which they stand, a subsequence of the input list (records compared by
their fields other than children). -/
theorem flatToTree_children_linked (flat : List Node) (hflat : IsFlatList flat) :
    ∃ R, flatToTree flat = some R ∧
      ∀ n, n ∈ treeToFlat R →
        (∀ c, c ∈ n.kids → c.parentId = n.id) ∧
        (n.kids.map Node.fields).Sublist (flat.map Node.fields) := by
  obtain ⟨R, rest', hR, hB⟩ := flatToTree_built flat
  refine ⟨R, hR, ?_⟩
  intro n hn
  obtain ⟨h1, h2⟩ := hB.children (hflat.filter _) (hflat.filter _) n hn
  exact ⟨h1, h2.trans ((List.filter_sublist _).map _)⟩

/-- Witness for C12 on the scenario list. -/
theorem flatToTree_children_linked_witness :
    IsFlatList orphanScenario ∧
    ∃ R, flatToTree orphanScenario = some R ∧
      ∀ n, n ∈ treeToFlat R →
        (∀ c, c ∈ n.kids → c.parentId = n.id) ∧
        (n.kids.map Node.fields).Sublist (orphanScenario.map Node.fields) :=
  ⟨isFlatList_orphanScenario, flatToTree_children_linked orphanScenario isFlatList_orphanScenario⟩

/-- C15: for every flat list, the top-level sequence `flatToTree` returns is, record by record
and in input order, the records of the list whose `parentId` is absent or falsy; every record
attached as a child has a truthy `parentId`, so a record with a falsy `parentId` is a root and
never a child, also when that falsy value is the id of some record: on
`[{id:0},{id:5,parentId:0}]` both records come back as roots. -/
theorem flatToTree_roots (flat : List Node) (hflat : IsFlatList flat) :
    (∃ R, flatToTree flat = some R ∧
      R.map Node.fields = (flat.filter fun r => !r.parentId.truthy).map Node.fields ∧
      ∀ n, n ∈ treeToFlat R → ∀ c, c ∈ n.kids → c.parentId.truthy = true) ∧
    flatToTree falsyParentList = some [leaf 0, child 5 0] := by
  refine ⟨?_, by decide⟩
  obtain ⟨R, rest', hR, hB⟩ := flatToTree_built flat
  refine ⟨R, hR, hB.fields_eq, ?_⟩
  intro n hn c hc
  have h2 := (hB.children (hflat.filter _) (hflat.filter _) n hn).2
  have h3 : c.fields ∈ (flat.filter fun i => i.parentId.truthy).map Node.fields :=
    h2.subset (List.mem_map.2 ⟨c, hc, rfl⟩)
  obtain ⟨r, hr, hrf⟩ := List.mem_map.1 h3
  rw [← parentId_of_fields_eq hrf]
  exact (List.mem_filter.1 hr).2

/-- Witness for C15 on the list with a falsy parent reference. -/
theorem flatToTree_roots_witness :
    IsFlatList falsyParentList ∧
    ((∃ R, flatToTree falsyParentList = some R ∧
      R.map Node.fields =
        (falsyParentList.filter fun r => !r.parentId.truthy).map Node.fields ∧
      ∀ n, n ∈ treeToFlat R → ∀ c, c ∈ n.kids → c.parentId.truthy = true) ∧
    flatToTree falsyParentList = some [leaf 0, child 5 0]) :=
  ⟨isFlatList_falsyParentList, flatToTree_roots falsyParentList isFlatList_falsyParentList⟩

theorem Built.deterministic {tree rest out rest' : List Node} (h : Built tree rest out rest') :
    ∀ out2 rest2, Built tree rest out2 rest2 → out = out2 ∧ rest' = rest2 := by
  induction h with
  | nil rest =>
    intro out2 rest2 h2
    cases h2
    exact ⟨rfl, rfl⟩
  | skip i is rest out rest' hk _ ih =>
    intro out2 rest2 h2
    cases h2 with
    | skip _ _ _ o r _ hb =>
      obtain ⟨h3, h4⟩ := ih _ _ hb
      exact ⟨by rw [h3], h4⟩
    | attach _ _ _ cs r2 o r3 hk2 _ _ => exact absurd hk hk2
  | attach i is rest cs rest2 out rest3 hk _ _ ih1 ih2 =>
    intro out2 rest2' h2
    cases h2 with
    | skip _ _ _ o r hk2 _ => exact absurd hk2 hk
    | attach _ _ _ cs2 r2 o r3 _ hb1 hb2 =>
      obtain ⟨h3, h4⟩ := ih1 _ _ hb1
      subst h3 h4
      obtain ⟨h5, h6⟩ := ih2 _ _ hb2
      exact ⟨by rw [h5], h6⟩

/-- C18: `flatToTree` returns a forest for every finite list (duplicate ids, self-parented
records and cyclic parent references included). A recursive call of `toTree` is made only when
some record was moved out of the remaining list, which then is strictly shorter; hence any
recursion budget above the number of records with a truthy `parentId` suffices, and every such
budget yields the same forest. -/
theorem flatToTree_terminates (flat : List Node) :
    (∃ R, flatToTree flat = some R ∧
      ∀ fuel, (flat.filter fun i => i.parentId.truthy).length < fuel →
        flatToTreeFuel fuel flat = some R) ∧
    (∀ (rest : List Node) (x : Val),
      (rest.filter fun r => r.parentId = x).length ≠ 0 →
        (rest.filter fun r => r.parentId ≠ x).length < rest.length) ∧
    flatToTree selfParentList = some [] ∧
    flatToTree cyclicList = some [] ∧
    flatToTree duplicateIdList =
      some [.mk (.num 1) .undefined .undefined (some [child 2 1]), leaf 1] := by
  refine ⟨?_, ?_, by decide, by decide, by decide⟩
  · obtain ⟨R, rest', hR, hB⟩ := flatToTree_built flat
    refine ⟨R, hR, ?_⟩
    intro fuel hfuel
    obtain ⟨R2, rest2, hR2, hB2⟩ := flatToTreeFuel_built fuel flat hfuel
    rw [hR2, (hB.deterministic R2 rest2 hB2).1]
  · intro rest x h
    have := length_filter_partition rest x
    omega

/-- C19: for every flat list (ids may repeat), the records of the forest `flatToTree` returns
are, counted with multiplicity, among the records of the input: no input record occurs twice in
the result, so the result has at most as many records as the list. Among the records of the
result that share an id, only the first in depth-first order has children: a record that
matches several of them is attached under the first only. -/
theorem flatToTree_at_most_once (flat : List Node) (hflat : IsFlatList flat) :
    (∃ R, flatToTree flat = some R ∧
      ((treeToFlat R).map Node.fields).Subperm (flat.map Node.fields) ∧
      (treeToFlat R).length ≤ flat.length ∧
      (treeToFlat R).Pairwise (fun a b => a.id = b.id → b.kids = [])) ∧
    flatToTree duplicateIdList =
      some [.mk (.num 1) .undefined .undefined (some [child 2 1]), leaf 1] := by
  refine ⟨?_, by decide⟩
  obtain ⟨R, rest', hR, hB⟩ := flatToTree_built flat
  have hsub : ((treeToFlat R).map Node.fields).Subperm (flat.map Node.fields) :=
    (List.sublist_append_left _ _).subperm.trans (built_perm_flat hflat hB).subperm
  refine ⟨R, hR, hsub, ?_, hB.first_only (hflat.filter _) (hflat.filter _)⟩
  simpa using hsub.length_le

/-- Witness for C19 on the list with two roots of id 1. -/
theorem flatToTree_at_most_once_witness :
    IsFlatList duplicateIdList ∧
    ((∃ R, flatToTree duplicateIdList = some R ∧
      ((treeToFlat R).map Node.fields).Subperm (duplicateIdList.map Node.fields) ∧
      (treeToFlat R).length ≤ duplicateIdList.length ∧
      (treeToFlat R).Pairwise (fun a b => a.id = b.id → b.kids = [])) ∧
    flatToTree duplicateIdList =
      some [.mk (.num 1) .undefined .undefined (some [child 2 1]), leaf 1]) :=
  ⟨isFlatList_duplicateIdList, flatToTree_at_most_once duplicateIdList isFlatList_duplicateIdList⟩

/-! ## arrayToTree -/

/-- C17: with `pid` declared nowhere, `arrayToTree` throws the reference error in the first
step of its `reduce` for every non-empty array, whatever the inner call would do, and so
returns no tree; only the empty array yields a value, the empty array. -/
theorem arrayToTree_reference_error (recur : Val → Except String (List Node)) :
    (∀ (current : Node) (rest : List Node),
      arrayToTree none recur (current :: rest) = .error "ReferenceError: pid is not defined" ∧
      arrayToTreeStep none recur [] current = .error "ReferenceError: pid is not defined" ∧
      ∀ tree, arrayToTree none recur (current :: rest) ≠ .ok tree) ∧
    (∀ pidBinding, arrayToTree pidBinding recur [] = .ok []) := by
  refine ⟨?_, ?_⟩
  · intro current rest
    have h : arrayToTree none recur (current :: rest) =
        .error "ReferenceError: pid is not defined" := by
      simp [arrayToTree, arrayToTreeReduce, arrayToTreeStep]
    refine ⟨h, by simp [arrayToTreeStep], ?_⟩
    intro tree ht
    rw [h] at ht
    cases ht
  · intro pidBinding
    simp [arrayToTree, arrayToTreeReduce]

/-! ## Further properties of treeShake -/

/-- C13: `treeShake` throws its configuration error exactly when `filterFn` is not a function;
it then does so without running a single loop iteration (already with no fuel at all), so
nothing is reported to `onDelete` and no traversal has touched the tree. -/
theorem treeShake_config_error (fuel : Nat) (config : Config) :
    ((∃ msg, treeShake fuel config = some (.error msg)) ↔ config.filterFn = none) ∧
    (config.filterFn = none →
      treeShake 0 config = some (.error "请设置正确的过滤回调函数") ∧
      treeShake fuel config = treeShake 0 config) ∧
    treeShake 0 noFilterConfig = some (.error "请设置正确的过滤回调函数") := by
  refine ⟨?_, ?_, rfl⟩
  · constructor
    · rintro ⟨msg, h⟩
      cases hf : config.filterFn with
      | none => rfl
      | some P =>
        exfalso
        simp only [treeShake, hf] at h
        split at h
        · cases h
        · cases h
    · intro hf
      exact ⟨"请设置正确的过滤回调函数", by simp only [treeShake, hf]⟩
  · intro hf
    simp only [treeShake, hf, and_self]

theorem forestHas_eq_any (P : Node → Bool) (l : List Node) :
    forestHas P l = l.any (fun n => n.subtreeHas P) := by
  induction l with
  | nil => simp [forestHas]
  | cons n ns ih => simp [forestHas, ih]

theorem forestHas_iff (P : Node → Bool) (l : List Node) :
    forestHas P l = true ↔ ∃ n, n ∈ treeToFlat l ∧ P n = true := by
  induction l using forest_induction with
  | hnil => simp [forestHas]
  | hcons a as ihk ihs =>
    rw [forestHas, subtreeHas_eq, treeToFlat_cons]
    simp only [Bool.or_eq_true, ihk, ihs, List.mem_cons, List.mem_append]
    constructor
    · rintro ((h | ⟨n, hn, hp⟩) | ⟨n, hn, hp⟩)
      · exact ⟨a, Or.inl rfl, h⟩
      · exact ⟨n, Or.inr (Or.inl hn), hp⟩
      · exact ⟨n, Or.inr (Or.inr hn), hp⟩
    · rintro ⟨n, hn | hn | hn, hp⟩
      · subst hn; exact Or.inl (Or.inl hp)
      · exact Or.inl (Or.inr ⟨n, hn, hp⟩)
      · exact Or.inr ⟨n, hn, hp⟩

theorem subtreeHas_iff (P : Node → Bool) (m : Node) :
    m.subtreeHas P = true ↔ ∃ n, n ∈ treeToFlat [m] ∧ P n = true := by
  rw [← forestHas_iff]
  simp [forestHas]

theorem forestHas_of_mem (P : Node → Bool) (l : List Node) (m : Node) (hm : m ∈ treeToFlat l)
    (h : m.subtreeHas P = true) : forestHas P l = true := by
  obtain ⟨n, hn, hp⟩ := (subtreeHas_iff P m).1 h
  refine (forestHas_iff P l).2 ⟨n, ?_, hp⟩
  rcases mem_treeToFlat_singleton.1 hn with h1 | h1
  · rw [h1]; exact hm
  · exact mem_treeToFlat_kids hm h1

theorem prune_eq_nil_iff (P : Node → Bool) (l : List Node) :
    prune P l = [] ↔ forestHas P l = false := by
  rw [prune_eq, forestHas_eq_any]
  simp [List.filter_eq_nil_iff]

theorem mem_treeToFlat_prune_of (P : Node → Bool) (l : List Node) :
    ∀ m, m ∈ treeToFlat l → m.subtreeHas P = true → pruneNode P m ∈ treeToFlat (prune P l) := by
  induction l using forest_induction with
  | hnil => intro m hm; simp at hm
  | hcons a as ihk ihs =>
    intro m hm hhas
    rw [treeToFlat_cons] at hm
    simp only [List.mem_cons, List.mem_append] at hm
    rw [prune_cons]
    rcases hm with hm | hm | hm
    · subst hm
      rw [if_pos hhas, treeToFlat_cons]
      simp
    · have ha : a.subtreeHas P = true := by
        rw [subtreeHas_eq, forestHas_of_mem P a.kids m hm hhas]
        simp
      rw [if_pos ha, treeToFlat_cons, pruneNode_kids]
      simp [ihk m hm hhas]
    · by_cases ha : a.subtreeHas P = true
      · rw [if_pos ha, treeToFlat_cons]
        simp [ihs m hm hhas]
      · rw [if_neg ha]
        exact ihs m hm hhas

theorem pruneNode_children_shape (P : Node → Bool) (m : Node) :
    (pruneNode P m).children = none ∨ ∃ k ks, (pruneNode P m).children = some (k :: ks) := by
  cases m with
  | mk i p d c =>
    cases c with
    | none => left; simp [pruneNode]
    | some kids =>
      simp only [pruneNode]
      cases prune P kids with
      | nil => left; rfl
      | cons k ks => right; exact ⟨k, ks, rfl⟩

theorem pruneNode_children_none (P : Node → Bool) (m : Node)
    (h : ∀ c, c ∈ m.kids → c.subtreeHas P = false) : (pruneNode P m).children = none := by
  cases m with
  | mk i p d c =>
    cases c with
    | none => simp [pruneNode]
    | some kids =>
      have hk : prune P kids = [] := by
        rw [prune_eq_nil_iff, forestHas_eq_any]
        simpa using h
      simp [pruneNode, hk]

/-- C14: no record in the output of `treeShake` carries an empty children array: the children
field of each output record is absent or non-empty. A retained record none of whose children
is retained comes out without the field, as does `{id:1,children:[]}` when it satisfies the
predicate. -/
theorem treeShake_no_empty_children (P : Node → Bool) (onDelete : Bool) (tree : List Node)
    (fuel : Nat) (hfuel : sizeList tree + 1 ≤ fuel) :
    (∃ out log, treeShake fuel ⟨tree, some P, onDelete⟩ = some (.ok (out, log)) ∧
      (∀ n, n ∈ treeToFlat out →
        n.children = none ∨ ∃ k ks, n.children = some (k :: ks)) ∧
      (∀ m, m ∈ treeToFlat tree → m.subtreeHas P = true →
        (∀ c, c ∈ m.kids → c.subtreeHas P = false) →
        pruneNode P m ∈ treeToFlat out ∧ (pruneNode P m).children = none)) ∧
    treeShake 4 ⟨emptyKidsTree, some idIsOne, true⟩ = some (.ok ([leaf 1], [leaf 2])) := by
  refine ⟨?_, rfl⟩
  obtain ⟨L, hL, -⟩ := treeShake_result P onDelete tree fuel hfuel
  refine ⟨prune P tree, L, hL, ?_, ?_⟩
  · intro n hn
    obtain ⟨m, -, rfl, -⟩ := mem_treeToFlat_prune P tree n hn
    exact pruneNode_children_shape P m
  · intro m hm hhas hkids
    exact ⟨mem_treeToFlat_prune_of P tree m hm hhas, pruneNode_children_none P m hkids⟩

/-- Witness for C14 on the tree whose matching record carries `children: []`. -/
theorem treeShake_no_empty_children_witness :
    sizeList emptyKidsTree + 1 ≤ 4 ∧
    ((∃ out log, treeShake 4 ⟨emptyKidsTree, some idIsOne, true⟩ = some (.ok (out, log)) ∧
      (∀ n, n ∈ treeToFlat out →
        n.children = none ∨ ∃ k ks, n.children = some (k :: ks)) ∧
      (∀ m, m ∈ treeToFlat emptyKidsTree → m.subtreeHas idIsOne = true →
        (∀ c, c ∈ m.kids → c.subtreeHas idIsOne = false) →
        pruneNode idIsOne m ∈ treeToFlat out ∧ (pruneNode idIsOne m).children = none)) ∧
    treeShake 4 ⟨emptyKidsTree, some idIsOne, true⟩ = some (.ok ([leaf 1], [leaf 2]))) :=
  ⟨by decide, treeShake_no_empty_children idIsOne true emptyKidsTree 4 (by decide)⟩

theorem treeShake_none_kept (P : Node → Bool) (onDelete : Bool) (tree : List Node) (fuel : Nat)
    (hfuel : sizeList tree + 1 ≤ fuel) (hno : forestHas P tree = false) :
    treeShake fuel ⟨tree, some P, onDelete⟩ =
      some (.ok ([], if onDelete then tree else [])) := by
  obtain ⟨f, rfl⟩ : ∃ f, fuel = f + 1 := ⟨fuel - 1, by omega⟩
  have hall : ∀ c, c ∈ tree → c.subtreeHas P = false := by
    rw [forestHas_eq_any] at hno
    simpa using hno
  have hkept : tree.filter (fun c => c.subtreeHas P) = [] := by
    rw [List.filter_eq_nil_iff]
    intro c hc
    simp [hall c hc]
  have hdel : tree.filter (fun c => !c.subtreeHas P) = tree := by
    rw [List.filter_eq_self]
    intro c hc
    simp [hall c hc]
  have hstep := shakeLoop_step P onDelete (f + 1) f
    (Node.mk (.symbol 0) .undefined .undefined (some tree))
    (Node.mk (.symbol 0) .undefined .undefined (some tree)) [] [] [] rfl
    (by simp [Node.size]; omega)
  simp only [treeShake, hstep, Node.kids_mk_some, hkept, hdel, List.length_nil, List.range_zero,
    List.map_nil, List.append_nil, List.nil_append, shakeLoop_nil, updateAt_nil]
  simp [shallowShake, hkept, Node.deleteChildren]

/-- C16: `treeShake` returns the empty forest exactly when no record of the tree satisfies the
predicate; in that case, with `onDelete` supplied, the calls of `onDelete` are the roots of the
tree, once each and in order. -/
theorem treeShake_empty_iff (P : Node → Bool) (tree : List Node) (fuel : Nat)
    (hfuel : sizeList tree + 1 ≤ fuel) :
    ∃ out log, treeShake fuel ⟨tree, some P, true⟩ = some (.ok (out, log)) ∧
      (out = [] ↔ ∀ n, n ∈ treeToFlat tree → P n = false) ∧
      ((∀ n, n ∈ treeToFlat tree → P n = false) → log = tree) := by
  have hiff : forestHas P tree = false ↔ ∀ n, n ∈ treeToFlat tree → P n = false := by
    rw [← Bool.not_eq_true, forestHas_iff]
    constructor
    · intro h n hn
      by_contra hp
      exact h ⟨n, hn, by simpa using hp⟩
    · rintro h ⟨n, hn, hp⟩
      rw [h n hn] at hp
      cases hp
  cases hno : forestHas P tree with
  | false =>
    refine ⟨[], tree, by simpa using treeShake_none_kept P true tree fuel hfuel hno, ?_, ?_⟩
    · exact ⟨fun _ => hiff.1 hno, fun _ => rfl⟩
    · intro _; rfl
  | true =>
    obtain ⟨L, hL, -⟩ := treeShake_result P true tree fuel hfuel
    refine ⟨prune P tree, L, hL, ?_, ?_⟩
    · rw [prune_eq_nil_iff, hiff]
    · intro h
      rw [hiff.2 h] at hno
      cases hno

/-- Witness for C16: no record of the scenario tree satisfies the predicate `never`. -/
theorem treeShake_empty_iff_witness :
    sizeList scenarioTree + 1 ≤ 5 ∧
    ∃ out log, treeShake 5 ⟨scenarioTree, some never, true⟩ = some (.ok (out, log)) ∧
      (out = [] ↔ ∀ n, n ∈ treeToFlat scenarioTree → never n = false) ∧
      ((∀ n, n ∈ treeToFlat scenarioTree → never n = false) → log = scenarioTree) :=
  ⟨by decide, treeShake_empty_iff never scenarioTree 5 (by decide)⟩

theorem fields_pruneNode (P : Node → Bool) (m : Node) : (pruneNode P m).fields = m.fields := by
  cases m with
  | mk i p d c =>
    obtain ⟨c', hc⟩ := pruneNode_fields P i p d c
    rw [hc]
    rfl

theorem treeToFlat_prune_sublist (P : Node → Bool) (l : List Node) :
    ((treeToFlat (prune P l)).map Node.fields).Sublist ((treeToFlat l).map Node.fields) := by
  induction l using forest_induction with
  | hnil => simp [prune]
  | hcons a as ihk ihs =>
    rw [prune_cons, treeToFlat_cons a as]
    by_cases ha : a.subtreeHas P = true
    · rw [if_pos ha, treeToFlat_cons, pruneNode_kids]
      simp only [List.map_cons, List.map_append, fields_pruneNode]
      exact List.Sublist.cons₂ _ (List.Sublist.append ihk ihs)
    · rw [if_neg ha]
      simp only [List.map_cons, List.map_append]
      exact List.Sublist.cons _ (ihs.trans (List.sublist_append_right _ _))

/-- C20: `treeShake` adds and reorders nothing: the pre-order list of the records of its
result, read by their fields other than children, is a subsequence of the pre-order list of
the input tree, and every record of the result is a record of the input whose fields other
than children are unchanged. -/
theorem treeShake_subsequence (P : Node → Bool) (onDelete : Bool) (tree : List Node)
    (fuel : Nat) (hfuel : sizeList tree + 1 ≤ fuel) :
    ∃ out log, treeShake fuel ⟨tree, some P, onDelete⟩ = some (.ok (out, log)) ∧
      ((treeToFlat out).map Node.fields).Sublist ((treeToFlat tree).map Node.fields) ∧
      ∀ n, n ∈ treeToFlat out →
        ∃ m, m ∈ treeToFlat tree ∧ n = pruneNode P m ∧ n.fields = m.fields := by
  obtain ⟨L, hL, -⟩ := treeShake_result P onDelete tree fuel hfuel
  refine ⟨prune P tree, L, hL, treeToFlat_prune_sublist P tree, ?_⟩
  intro n hn
  obtain ⟨m, hm, rfl, -⟩ := mem_treeToFlat_prune P tree n hn
  exact ⟨m, hm, rfl, fields_pruneNode P m⟩

/-- Witness for C20 on the scenario tree. -/
theorem treeShake_subsequence_witness :
    sizeList scenarioTree + 1 ≤ 5 ∧
    ∃ out log, treeShake 5 ⟨scenarioTree, some idIsFour, true⟩ = some (.ok (out, log)) ∧
      ((treeToFlat out).map Node.fields).Sublist ((treeToFlat scenarioTree).map Node.fields) ∧
      ∀ n, n ∈ treeToFlat out →
        ∃ m, m ∈ treeToFlat scenarioTree ∧ n = pruneNode idIsFour m ∧ n.fields = m.fields :=
  ⟨by decide, treeShake_subsequence idIsFour true scenarioTree 5 (by decide)⟩

end TreeUtils
